import Mathlib

/-!
Verification of the procedural map-generation subsystem of `pyglet-helpers`
(`src/mapgen/cargegen.py`, `src/mapgen/drunkwalk.py`, `src/mapgen/voronoi.py`).

The three generators are shallowly embedded as pure Lean functions:

* Python's `random.Random(seed)` is modelled as a tape `Nat → Nat` of raw
  draws, consumed sequentially.  `randint(a, b)` maps a raw draw into the
  inclusive range `[a, b]` (CPython's documented semantics), `random()`
  into the rational range `[0, 1)` (53-bit mantissa, as CPython), and
  `choice(seq)` picks `seq[draw % len(seq)]`.
* Grids (`list` of `list` in Python) are `List (List α)`; reads use the
  value `0` as the sentinel for out-of-range indices, mirroring the
  bounds-checked accessors (`get_pos`, `get_area_from_position`) of the
  source, and in-place mutation is modelled by `List.set`.
* Constructions that raise in Python (`ZeroDivisionError` for a total
  charge count of zero or an empty charge grid, `ValueError` from
  `randint(0, -1)` when the Voronoi map has a zero dimension, unbounded
  loops that would spin forever) are modelled with `Option`, `none`
  standing for a construction that never returns normally.
* The floating-point field arithmetic of `ChargeGen.get_total_charge_of_point`
  (square roots and divisions of floats) is kept abstract: the pipeline is
  parametric in the per-point field kernel `f`, and every theorem about
  `ChargeGen` is proved for all kernels.  The cutoff stage (lines 34-47 of
  `cargegen.py`), which the claims are about, is embedded exactly, over `ℚ`.
-/

namespace Mapgen

/-- Read cell `(row y, column x)` of a grid, with `0` for out-of-range
indices (the sentinel every bounds-checked accessor of the source uses). -/
def get2 {α : Type} [Zero α] (g : List (List α)) (y x : Nat) : α :=
  (g.getD y []).getD x 0

/-- Write value `v` at cell `(row y, column x)`; models the in-place
assignment `grid[y][x] = v` of the source. -/
def set2 {α : Type} (g : List (List α)) (y x : Nat) (v : α) : List (List α) :=
  g.set y ((g.getD y []).set x v)

theorem getD_of_lt {α : Type} (g : List (List α)) (y : Nat) (hy : y < g.length) :
    g.getD y [] = g[y] := by
  simp [List.getD_eq_getElem?_getD, List.getElem?_eq_getElem hy]

theorem getD_of_le {α : Type} (g : List (List α)) (y : Nat) (hy : g.length ≤ y) :
    g.getD y [] = [] := by
  simp [List.getD_eq_getElem?_getD, List.getElem?_eq_none hy]

theorem length_set2 {α : Type} (g : List (List α)) (y x : Nat) (v : α) :
    (set2 g y x v).length = g.length := by
  simp [set2]

theorem getD_set2 {α : Type} (g : List (List α)) (y x y' : Nat) (v : α) :
    (set2 g y x v).getD y' [] =
      if y = y' ∧ y < g.length then (g.getD y []).set x v else g.getD y' [] := by
  unfold set2
  by_cases h1 : y = y'
  · subst h1
    by_cases h2 : y < g.length
    · simp only [h2, and_true, if_pos rfl]
      simp [List.getD_eq_getElem?_getD, List.getElem?_set_self (by simpa using h2)]
    · rw [if_neg (fun hh : y = y ∧ y < g.length => h2 hh.2),
        List.set_eq_of_length_le (Nat.le_of_not_lt h2)]
  · rw [if_neg (fun h => h1 h.1)]
    simp [List.getD_eq_getElem?_getD, List.getElem?_set_ne h1]

theorem rowLen_set2 {α : Type} (g : List (List α)) (y x : Nat) (v : α) (y' : Nat) :
    ((set2 g y x v).getD y' []).length = (g.getD y' []).length := by
  rw [getD_set2]
  by_cases h : y = y' ∧ y < g.length
  · rw [if_pos h, List.length_set, h.1]
  · rw [if_neg h]

theorem get2_set2_same {α : Type} [Zero α] (g : List (List α)) (y x : Nat) (v : α)
    (hy : y < g.length) (hx : x < (g.getD y []).length) :
    get2 (set2 g y x v) y x = v := by
  unfold get2
  rw [getD_set2, if_pos ⟨rfl, hy⟩]
  simp [List.getD_eq_getElem?_getD, List.getElem?_set_self (by simpa using hx)]

theorem get2_set2_ne {α : Type} [Zero α] (g : List (List α)) (y x : Nat) (v : α)
    (y' x' : Nat) (h : ¬(y' = y ∧ x' = x)) :
    get2 (set2 g y x v) y' x' = get2 g y' x' := by
  unfold get2
  rw [getD_set2]
  by_cases h1 : y = y' ∧ y < g.length
  · have hx : x ≠ x' := fun hxx => h ⟨h1.1.symm, hxx.symm⟩
    rw [if_pos h1, h1.1]
    simp [List.getD_eq_getElem?_getD, List.getElem?_set_ne hx]
  · rw [if_neg h1]

/-- A nonzero cell read is necessarily in range (out-of-range reads give the
sentinel `0`). -/
theorem get2_ne_zero_bounds {α : Type} [Zero α] (g : List (List α)) (y x : Nat)
    (h : get2 g y x ≠ 0) : y < g.length ∧ x < (g.getD y []).length := by
  unfold get2 at h
  constructor
  · by_contra hy
    rw [getD_of_le g y (Nat.le_of_not_lt hy)] at h
    simp at h
  · by_contra hx
    rw [List.getD_eq_getElem?_getD (l := g.getD y []),
      List.getElem?_eq_none (Nat.le_of_not_lt hx)] at h
    simp at h

/-- Two grids of identical shape that agree on every in-range cell are equal. -/
theorem grid_ext {α : Type} [Zero α] (g h : List (List α))
    (hlen : g.length = h.length)
    (hrow : ∀ y, y < g.length → (g.getD y []).length = (h.getD y []).length)
    (hcell : ∀ y x, y < g.length → x < (g.getD y []).length → get2 g y x = get2 h y x) :
    g = h := by
  apply List.ext_getElem hlen
  intro y hy1 hy2
  apply List.ext_getElem
  · have := hrow y hy1
    rwa [getD_of_lt g y hy1, getD_of_lt h y hy2] at this
  · intro x hx1 hx2
    have hx1' : x < (g.getD y []).length := by rwa [getD_of_lt g y hy1]
    have hc := hcell y x hy1 hx1'
    unfold get2 at hc
    rwa [getD_of_lt g y hy1, getD_of_lt h y hy2,
      List.getD_eq_getElem?_getD, List.getElem?_eq_getElem hx1,
      List.getD_eq_getElem?_getD, List.getElem?_eq_getElem hx2] at hc

/-! ### The pseudo-random source

`random.Random(seed)` is a deterministic stream of draws; we model the
stream as a tape `Nat → Nat` of raw values and an index of the next cell to
consume.  `randint a b` returns a value in the inclusive range `[a, b]`
(CPython semantics), `randomUnit` a rational in `[0, 1)` (53-bit mantissa,
as CPython's `random()`), `choice` the element `seq[draw % len seq]`. -/

/-- One raw draw from the tape at index `k`, mapped into the inclusive
integer range `[lo, hi]`, as Python's `randint(lo, hi)`. -/
def randint (tape : Nat → Nat) (k lo hi : Nat) : Nat :=
  lo + tape k % (hi + 1 - lo)

/-- One raw draw mapped into `[0, 1) ∩ ℚ`, as Python's `random()`. -/
def randomUnit (tape : Nat → Nat) (k : Nat) : ℚ :=
  (tape k % 2 ^ 53 : Nat) / (2 ^ 53 : ℚ)

theorem randomUnit_nonneg (tape : Nat → Nat) (k : Nat) : 0 ≤ randomUnit tape k := by
  unfold randomUnit
  positivity

theorem randomUnit_lt_one (tape : Nat → Nat) (k : Nat) : randomUnit tape k < 1 := by
  unfold randomUnit
  rw [div_lt_one (by norm_num)]
  exact_mod_cast Nat.mod_lt _ (by norm_num)

/-- One raw draw used to select an element of a nonempty list, as Python's
`choice(seq)`. -/
def choiceD {α : Type} (tape : Nat → Nat) (k : Nat) (l : List α) (d : α) : α :=
  l.getD (tape k % l.length) d

theorem choiceD_mem {α : Type} (tape : Nat → Nat) (k : Nat) (l : List α) (d : α)
    (h : l ≠ []) : choiceD tape k l d ∈ l := by
  unfold choiceD
  have hlt : tape k % l.length < l.length :=
    Nat.mod_lt _ (List.length_pos.mpr h)
  rw [List.getD_eq_getElem?_getD, List.getElem?_eq_getElem hlt]
  exact List.getElem_mem hlt

/-- The in-range cells `(y, x)` of grid `g`, row-major. -/
def cellsOf (g : List (List Nat)) : List (Nat × Nat) :=
  (List.range g.length).flatMap
    (fun y => (List.range ((g.getD y []).length)).map (fun x => (y, x)))

theorem mem_cellsOf (g : List (List Nat)) (y x : Nat) :
    (y, x) ∈ cellsOf g ↔ y < g.length ∧ x < (g.getD y []).length := by
  simp only [cellsOf, List.mem_flatMap, List.mem_map, List.mem_range]
  constructor
  · rintro ⟨a, ha, b, hb, heq⟩
    simp only [Prod.mk.injEq] at heq
    exact ⟨heq.1 ▸ ha, by rw [← heq.1]; exact heq.2 ▸ hb⟩
  · rintro ⟨hy, hx⟩
    exact ⟨y, hy, x, hx, rfl⟩

theorem nodup_cellsOf (g : List (List Nat)) : (cellsOf g).Nodup := by
  unfold cellsOf
  refine List.nodup_flatMap.mpr
    ⟨fun y _ => List.Nodup.map (fun a b h => by simpa using h) (List.nodup_range _), ?_⟩
  refine List.Pairwise.imp ?_ (List.nodup_range _)
  intro a b hne
  simp only [Function.onFun, List.disjoint_left, List.mem_map, List.mem_range]
  rintro p ⟨i, _, rfl⟩ ⟨j, _, hj⟩
  simp only [Prod.mk.injEq] at hj
  exact hne hj.1.symm

/-- The number of EMPTY (`0`) cells in the grid. -/
def emptyCount (g : List (List Nat)) : Nat :=
  ((cellsOf g).filter (fun c => get2 g c.1 c.2 == 0)).length

theorem filter_length_lt {α : Type} (cs : List α) (p q : α → Bool) (c : α)
    (hc : c ∈ cs) (hnd : cs.Nodup) (hpc : p c = true) (hqc : q c = false)
    (hother : ∀ d ∈ cs, d ≠ c → q d = p d) :
    (cs.filter q).length < (cs.filter p).length := by
  induction cs with
  | nil => cases hc
  | cons a tl ih =>
    by_cases hac : a = c
    · subst hac
      have hnotl : a ∉ tl := (List.nodup_cons.mp hnd).1
      have heq : tl.filter q = tl.filter p :=
        List.filter_congr (fun d hd =>
          hother d (List.mem_cons_of_mem _ hd) (fun hdc => hnotl (hdc ▸ hd)))
      rw [List.filter_cons, List.filter_cons, hpc, hqc]
      simp only [if_pos, if_neg, Bool.false_eq_true, not_false_eq_true, ite_true, ite_false]
      rw [heq]
      exact Nat.lt_succ_self _
    · have hcm : c ∈ tl := by
        rcases List.mem_cons.mp hc with h | h
        · exact absurd h.symm hac
        · exact h
      have hqa : q a = p a := hother a (List.mem_cons_self ..) hac
      have hrec := ih hcm (List.nodup_cons.mp hnd).2
        (fun d hd hdc => hother d (List.mem_cons_of_mem _ hd) hdc)
      rw [List.filter_cons, List.filter_cons, hqa]
      by_cases hpa : p a = true
      · rw [hpa]
        simpa using Nat.succ_lt_succ hrec
      · rw [Bool.eq_false_iff.mpr hpa]
        simpa using hrec

theorem cellsOf_shape_congr (g h : List (List Nat))
    (hlen : g.length = h.length)
    (hrow : ∀ y, (g.getD y []).length = (h.getD y []).length) :
    cellsOf g = cellsOf h := by
  unfold cellsOf
  rw [hlen]
  exact List.flatMap_congr (fun y _ => by rw [hrow y])

/-- Writing a nonzero value into an in-range EMPTY cell strictly decreases the
number of EMPTY cells. -/
theorem emptyCount_set2_lt (g : List (List Nat)) (y x v : Nat)
    (hy : y < g.length) (hx : x < (g.getD y []).length) (h0 : get2 g y x = 0)
    (hv : v ≠ 0) :
    emptyCount (set2 g y x v) < emptyCount g := by
  unfold emptyCount
  rw [cellsOf_shape_congr (set2 g y x v) g (length_set2 ..) (fun y' => rowLen_set2 ..)]
  apply filter_length_lt (cellsOf g) _ _ (y, x) ((mem_cellsOf g y x).mpr ⟨hy, hx⟩)
    (nodup_cellsOf g)
  · simpa using h0
  · simp [get2_set2_same g y x v hy hx, hv]
  · intro d _ hdc
    have hne : ¬(d.1 = y ∧ d.2 = x) := by
      intro hh
      exact hdc (Prod.ext hh.1 hh.2)
    simp [get2_set2_ne g y x v d.1 d.2 hne]

/-! ### ChargeGen (`src/mapgen/cargegen.py`)

`ChargeGen.__init__(seed, area_size, number_of_positive_charges,
number_of_negative_charges, cutoff_multiplier)`:

1. `charge_strength = (W + H) / 2 / sqrt(npos + nneg)` — raises
   `ZeroDivisionError` when `npos + nneg = 0` (modelled as `none`).
2. draws `npos + nneg` charges `(randint(0, W), randint(0, H), ±1)`,
   consuming two tape cells per charge, positives first;
3. fills `charge_map[y][x] = get_total_charge_of_point((x, y))` for
   `y < H`, `x < W` — the float kernel is the parameter `f`;
4. `cutoff = (Σ cells) / (W * H) * cutoff_multiplier` — raises
   `ZeroDivisionError` when `W * H = 0` (modelled as `none`);
5. zeroes in place every cell strictly below `cutoff`. -/

namespace ChargeGen

/-- The charge list: `npos + nneg` draws `(randint(0, W), randint(0, H))`,
charge `i` consuming tape cells `2*i` and `2*i+1`; polarity `+1` for the
first `npos` draws and `-1` for the rest. -/
def drawCharges (tape : Nat → Nat) (W H npos nneg : Nat) : List (Nat × Nat × Int) :=
  (List.range (npos + nneg)).map (fun i =>
    (randint tape (2 * i) 0 W, randint tape (2 * i + 1) 0 H,
      if i < npos then 1 else -1))

/-- The raw potential field: `charge_map[y][x] = f charges (x, y)`, where `f`
abstracts the floating-point kernel `get_total_charge_of_point`. -/
def rawMap (f : List (Nat × Nat × Int) → Nat × Nat → ℚ)
    (charges : List (Nat × Nat × Int)) (W H : Nat) : List (List ℚ) :=
  (List.range H).map (fun y => (List.range W).map (fun x => f charges (x, y)))

/-- Sum of all cells visited by the double loop
`for y in range(H): for x in range(W)` that accumulates `self.cutoff`. -/
def sumCells (m : List (List ℚ)) (W H : Nat) : ℚ :=
  ((List.range H).map (fun y => ((List.range W).map (fun x => get2 m y x)).sum)).sum

/-- The cells `(y, x)` of the cutoff pass, in the source's row-major order. -/
def cellList (W H : Nat) : List (Nat × Nat) :=
  (List.range H).flatMap (fun y => (List.range W).map (fun x => (y, x)))

/-- The in-place cutoff pass over a list of cells:
`if charge_map[y][x] < cutoff: charge_map[y][x] = 0`. -/
def applyCutoff (cut : ℚ) (cs : List (Nat × Nat)) (m : List (List ℚ)) : List (List ℚ) :=
  cs.foldl (fun m c => if get2 m c.1 c.2 < cut then set2 m c.1 c.2 0 else m) m

/-- The state a fully constructed `ChargeGen` exposes. -/
structure State where
  charges : List (Nat × Nat × Int)
  cutoff : ℚ
  charge_map : List (List ℚ)
deriving DecidableEq, Repr

/-- The whole constructor, parametric in the float field kernel `f`;
`none` models the `ZeroDivisionError`s raised for a zero total charge
count and for an empty grid. -/
def chargeGen (f : List (Nat × Nat × Int) → Nat × Nat → ℚ)
    (tape : Nat → Nat) (W H npos nneg : Nat) (mult : ℚ) : Option State :=
  if npos + nneg = 0 then none
  else
    let charges := drawCharges tape W H npos nneg
    let raw := rawMap f charges W H
    if W * H = 0 then none
    else
      let cut := sumCells raw W H / (W * H : Nat) * mult
      some ⟨charges, cut, applyCutoff cut (cellList W H) raw⟩

theorem length_rawMap (f) (charges) (W H : Nat) : (rawMap f charges W H).length = H := by
  simp [rawMap]

theorem rowLen_rawMap (f) (charges) (W H y : Nat) (hy : y < H) :
    ((rawMap f charges W H).getD y []).length = W := by
  unfold rawMap
  rw [getD_of_lt _ y (by simpa using hy)]
  simp

theorem get2_rawMap (f) (charges) (W H y x : Nat) (hy : y < H) (hx : x < W) :
    get2 (rawMap f charges W H) y x = f charges (x, y) := by
  unfold get2 rawMap
  rw [getD_of_lt _ y (by simpa using hy)]
  simp only [List.getElem_map, List.getElem_range]
  rw [List.getD_eq_getElem?_getD, List.getElem?_eq_getElem (by simpa using hx)]
  simp

theorem mem_cellList (W H : Nat) (y x : Nat) :
    (y, x) ∈ cellList W H ↔ y < H ∧ x < W := by
  simp only [cellList, List.mem_flatMap, List.mem_map, List.mem_range]
  constructor
  · rintro ⟨a, ha, b, hb, heq⟩
    obtain ⟨h1, h2⟩ := Prod.mk.injEq .. ▸ heq
    simp only [Prod.mk.injEq] at heq
    exact ⟨heq.1 ▸ ha, heq.2 ▸ hb⟩
  · rintro ⟨hy, hx⟩
    exact ⟨y, hy, x, hx, rfl⟩

theorem nodup_cellList (W H : Nat) : (cellList W H).Nodup := by
  unfold cellList
  refine List.nodup_flatMap.mpr
    ⟨fun y _ => List.Nodup.map (fun a b h => by simpa using h) (List.nodup_range W), ?_⟩
  refine List.Pairwise.imp ?_ (List.nodup_range H)
  intro a b hne
  simp only [Function.onFun, List.disjoint_left, List.mem_map, List.mem_range]
  rintro p ⟨i, _, rfl⟩ ⟨j, _, hj⟩
  simp only [Prod.mk.injEq] at hj
  exact hne hj.1.symm

/-- Pointwise characterisation of the in-place cutoff pass, for a duplicate-free
list of in-range cells: a visited cell strictly below the cutoff becomes `0`,
everything else is untouched. -/
theorem get2_applyCutoff (cut : ℚ) (cs : List (Nat × Nat)) (m : List (List ℚ))
    (hnd : cs.Nodup)
    (hin : ∀ c ∈ cs, c.1 < m.length ∧ c.2 < (m.getD c.1 []).length) :
    ∀ y x, get2 (applyCutoff cut cs m) y x =
      if (y, x) ∈ cs ∧ get2 m y x < cut then 0 else get2 m y x := by
  induction cs generalizing m with
  | nil => simp [applyCutoff]
  | cons c tl ih =>
    obtain ⟨cy, cx⟩ := c
    intro y x
    have step : applyCutoff cut ((cy, cx) :: tl) m =
        applyCutoff cut tl (if get2 m cy cx < cut then set2 m cy cx 0 else m) := by
      simp [applyCutoff]
    rw [step]
    set m' := if get2 m cy cx < cut then set2 m cy cx 0 else m with hm'
    have hshape : m'.length = m.length ∧ ∀ y', (m'.getD y' []).length = (m.getD y' []).length := by
      rw [hm']
      split
      · exact ⟨length_set2 .., fun y' => rowLen_set2 ..⟩
      · exact ⟨rfl, fun _ => rfl⟩
    have hin' : ∀ d ∈ tl, d.1 < m'.length ∧ d.2 < (m'.getD d.1 []).length := by
      intro d hd
      rw [hshape.1, hshape.2 d.1]
      exact hin d (List.mem_cons_of_mem _ hd)
    have hother : ∀ y' x', ¬(y' = cy ∧ x' = cx) → get2 m' y' x' = get2 m y' x' := by
      intro y' x' hne
      rw [hm']
      split
      · exact get2_set2_ne m cy cx 0 y' x' hne
      · rfl
    rw [ih m' hnd.of_cons hin']
    by_cases hc : (y, x) = (cy, cx)
    · obtain ⟨hy, hx⟩ : y = cy ∧ x = cx := by simpa using hc
      subst hy
      subst hx
      have hctl : (y, x) ∉ tl := (List.nodup_cons.mp hnd).1
      rw [if_neg (fun hh => hctl hh.1)]
      rw [hm']
      by_cases hlt : get2 m y x < cut
      · rw [if_pos hlt, if_pos ⟨List.mem_cons_self .., hlt⟩]
        exact get2_set2_same m y x 0 (hin (y, x) (List.mem_cons_self ..)).1
          (hin (y, x) (List.mem_cons_self ..)).2
      · rw [if_neg hlt, if_neg (fun hh => hlt hh.2)]
    · have hne : ¬(y = cy ∧ x = cx) := by
        intro hh
        exact hc (Prod.ext hh.1 hh.2)
      rw [hother y x hne]
      by_cases hlt : get2 m y x < cut
      · by_cases hmem : (y, x) ∈ tl
        · rw [if_pos ⟨hmem, hlt⟩, if_pos ⟨List.mem_cons_of_mem _ hmem, hlt⟩]
        · rw [if_neg (fun hh => hmem hh.1), if_neg]
          intro hh
          rcases List.mem_cons.mp hh.1 with h1 | h1
          · exact hc h1
          · exact hmem h1
      · rw [if_neg (fun hh => hlt hh.2), if_neg (fun hh => hlt hh.2)]

/-- Construction with a zero total charge count raises (`ZeroDivisionError`
from `charge_strength`), for every kernel, tape, grid and multiplier. -/
theorem chargeGen_zero_charges (f : List (Nat × Nat × Int) → Nat × Nat → ℚ)
    (tape : Nat → Nat) (W H : Nat) (mult : ℚ) :
    chargeGen f tape W H 0 0 mult = none := by
  rw [chargeGen, if_pos rfl]

theorem chargeGen_total (f : List (Nat × Nat × Int) → Nat × Nat → ℚ)
    (tape : Nat → Nat) (W H npos nneg : Nat) (mult : ℚ)
    (h1 : npos + nneg ≠ 0) (h2 : W * H ≠ 0) :
    (chargeGen f tape W H npos nneg mult).isSome = true := by
  rw [chargeGen, if_neg h1]
  simp only [if_neg h2]
  rfl

theorem chargeGen_some (f : List (Nat × Nat × Int) → Nat × Nat → ℚ)
    (tape : Nat → Nat) (W H npos nneg : Nat) (mult : ℚ) (st : State)
    (h : chargeGen f tape W H npos nneg mult = some st) :
    npos + nneg ≠ 0 ∧ W * H ≠ 0 ∧
      st = ⟨drawCharges tape W H npos nneg,
        sumCells (rawMap f (drawCharges tape W H npos nneg) W H) W H / (W * H : Nat) * mult,
        applyCutoff
          (sumCells (rawMap f (drawCharges tape W H npos nneg) W H) W H / (W * H : Nat) * mult)
          (cellList W H) (rawMap f (drawCharges tape W H npos nneg) W H)⟩ := by
  rw [chargeGen] at h
  by_cases h1 : npos + nneg = 0
  · rw [if_pos h1] at h
    cases h
  · rw [if_neg h1] at h
    by_cases h2 : W * H = 0
    · simp only [if_pos h2] at h
      cases h
    · simp only [if_neg h2] at h
      exact ⟨h1, h2, (Option.some.inj h).symm⟩

theorem get_drawCharges (tape : Nat → Nat) (W H npos nneg : Nat) :
    (drawCharges tape W H npos nneg).length = npos + nneg ∧
      ∀ i (hi : i < (drawCharges tape W H npos nneg).length),
        ((drawCharges tape W H npos nneg).get ⟨i, hi⟩).1 ≤ W ∧
        ((drawCharges tape W H npos nneg).get ⟨i, hi⟩).2.1 ≤ H ∧
        ((drawCharges tape W H npos nneg).get ⟨i, hi⟩).2.2 =
          (if i < npos then 1 else -1) := by
  have hlen : (drawCharges tape W H npos nneg).length = npos + nneg := by
    simp [drawCharges]
  refine ⟨hlen, fun i hi => ?_⟩
  have hi' : i < npos + nneg := hlen ▸ hi
  have hget : (drawCharges tape W H npos nneg).get ⟨i, hi⟩ =
      (randint tape (2 * i) 0 W, randint tape (2 * i + 1) 0 H,
        if i < npos then 1 else -1) := by
    unfold drawCharges
    rw [List.get_eq_getElem, List.getElem_map, List.getElem_range]
  rw [hget]
  refine ⟨?_, ?_, rfl⟩
  · show 0 + tape (2 * i) % (W + 1 - 0) ≤ W
    have : W + 1 - 0 = W + 1 := by omega
    rw [this, Nat.zero_add]
    have := Nat.mod_lt (tape (2 * i)) (y := W + 1) (by omega)
    omega
  · show 0 + tape (2 * i + 1) % (H + 1 - 0) ≤ H
    have : H + 1 - 0 = H + 1 := by omega
    rw [this, Nat.zero_add]
    have := Nat.mod_lt (tape (2 * i + 1)) (y := H + 1) (by omega)
    omega

end ChargeGen

/-! ### DrunkWalk (`src/mapgen/drunkwalk.py`)

Tile values: `TILE_EMPTY = 0`, `TILE_FLOOR = 1`, `TILE_WALL = 2`; the
sentinel `UNLIMITED_STEPS = -1`; `NO_INTERSECTION = 0.0`. -/

namespace DrunkWalk

/-- `get_pos`: the tile value, or `TILE_EMPTY` (0) for out-of-bounds
coordinates. -/
def getPos (g : List (List Nat)) (x y : Int) : Nat :=
  if y < 0 ∨ (g.length : Int) ≤ y ∨ x < 0 ∨ ((g.getD y.toNat []).length : Int) ≤ x then 0
  else get2 g y.toNat x.toNat

/-- `get_pos_inner`: whether the tile is `TILE_FLOOR`. -/
def getPosInner (g : List (List Nat)) (x y : Int) : Bool :=
  getPos g x y == 1

/-- The neighbour test of `generate_walls`, with the source's duplicated
12-term disjunction kept verbatim (it covers exactly the 8 neighbours). -/
def wallCond (g : List (List Nat)) (x y : Int) : Bool :=
  getPosInner g (x-1) y || getPosInner g (x+1) y ||
    getPosInner g x (y-1) || getPosInner g x (y+1) ||
    getPosInner g (x-1) (y-1) || getPosInner g (x+1) (y-1) ||
    getPosInner g (x-1) (y-1) || getPosInner g (x-1) (y+1) ||
    getPosInner g (x-1) (y+1) || getPosInner g (x+1) (y+1) ||
    getPosInner g (x+1) (y-1) || getPosInner g (x+1) (y+1)

/-- One cell update of `generate_walls`' full-grid pass:
`if get_pos(x, y) == 0 and <neighbour test>: walk_map[y][x] = TILE_WALL`,
for `c = (y, x)`. -/
def wallsUpd (g : List (List Nat)) (c : Nat × Nat) : List (List Nat) :=
  if getPos g (c.2 : Int) (c.1 : Int) = 0 ∧ wallCond g (c.2 : Int) (c.1 : Int) then
    set2 g c.1 c.2 2
  else g

/-- `generate_walls`: the in-place pass over
`for y in range(len(walk_map)): for x in range(len(walk_map[y]))`. -/
def generateWalls (g0 : List (List Nat)) : List (List Nat) :=
  (List.range g0.length).foldl (fun g y =>
    (List.range ((g.getD y []).length)).foldl (fun g2 x => wallsUpd g2 (y, x)) g) g0

/-- The same pass as a single fold over an explicit cell list. -/
def wallsCells (cs : List (Nat × Nat)) (g : List (List Nat)) : List (List Nat) :=
  cs.foldl wallsUpd g

theorem getPos_natCast (g : List (List Nat)) (x y : Nat)
    (hy : y < g.length) (hx : x < (g.getD y []).length) :
    getPos g (x : Int) (y : Int) = get2 g y x := by
  unfold getPos
  simp only [Int.toNat_natCast]
  rw [if_neg]
  omega

theorem shape_wallsUpd (g : List (List Nat)) (c : Nat × Nat) :
    (wallsUpd g c).length = g.length ∧
      ∀ y, ((wallsUpd g c).getD y []).length = (g.getD y []).length := by
  unfold wallsUpd
  split
  · exact ⟨length_set2 .., fun y => rowLen_set2 ..⟩
  · exact ⟨rfl, fun _ => rfl⟩

theorem shape_wallsCells (cs : List (Nat × Nat)) (g : List (List Nat)) :
    (wallsCells cs g).length = g.length ∧
      ∀ y, ((wallsCells cs g).getD y []).length = (g.getD y []).length := by
  induction cs generalizing g with
  | nil => exact ⟨rfl, fun _ => rfl⟩
  | cons c tl ih =>
    have h1 := shape_wallsUpd g c
    have h2 := ih (wallsUpd g c)
    exact ⟨by rw [wallsCells, List.foldl_cons, ← wallsCells, h2.1, h1.1],
      fun y => by rw [wallsCells, List.foldl_cons, ← wallsCells, h2.2 y, h1.2 y]⟩

/-- A single wall update never creates or destroys FLOOR cells. -/
theorem floor_wallsUpd (g : List (List Nat)) (c : Nat × Nat)
    (hc : c.1 < g.length ∧ c.2 < (g.getD c.1 []).length) :
    ∀ a b, get2 (wallsUpd g c) a b = 1 ↔ get2 g a b = 1 := by
  intro a b
  unfold wallsUpd
  split
  · rename_i hcond
    by_cases hab : a = c.1 ∧ b = c.2
    · rw [hab.1, hab.2, get2_set2_same g c.1 c.2 2 hc.1 hc.2]
      rw [getPos_natCast g c.2 c.1 hc.1 hc.2] at hcond
      rw [hcond.1]
      omega
    · rw [get2_set2_ne g c.1 c.2 2 a b hab]
  · exact Iff.rfl

theorem getPosInner_congr (g g' : List (List Nat))
    (hlen : g'.length = g.length)
    (hrow : ∀ y, (g'.getD y []).length = (g.getD y []).length)
    (hfloor : ∀ a b, get2 g' a b = 1 ↔ get2 g a b = 1) :
    ∀ x y : Int, getPosInner g' x y = getPosInner g x y := by
  intro x y
  unfold getPosInner getPos
  rw [hlen, hrow y.toNat]
  split
  · rfl
  · have hf := hfloor y.toNat x.toNat
    by_cases h1 : get2 g' y.toNat x.toNat = 1
    · simp [h1, hf.mp h1]
    · have h2 : get2 g y.toNat x.toNat ≠ 1 := fun hx2 => h1 (hf.mpr hx2)
      simp [h1, h2]

theorem wallCond_congr (g g' : List (List Nat))
    (hlen : g'.length = g.length)
    (hrow : ∀ y, (g'.getD y []).length = (g.getD y []).length)
    (hfloor : ∀ a b, get2 g' a b = 1 ↔ get2 g a b = 1) :
    ∀ x y : Int, wallCond g' x y = wallCond g x y := by
  intro x y
  unfold wallCond
  simp only [getPosInner_congr g g' hlen hrow hfloor]

/-- Pointwise characterisation of the wall pass run over any duplicate-free
list of in-range cells: a visited EMPTY cell with a FLOOR neighbour becomes
WALL; every other cell is untouched. -/
theorem get2_wallsCells (cs : List (Nat × Nat)) (g : List (List Nat))
    (hnd : cs.Nodup)
    (hin : ∀ c ∈ cs, c.1 < g.length ∧ c.2 < (g.getD c.1 []).length) :
    ∀ y x, get2 (wallsCells cs g) y x =
      if (y, x) ∈ cs ∧ get2 g y x = 0 ∧ wallCond g (x : Int) (y : Int) then 2
      else get2 g y x := by
  induction cs generalizing g with
  | nil => simp [wallsCells]
  | cons c tl ih =>
    obtain ⟨cy, cx⟩ := c
    intro y x
    have hcin := hin (cy, cx) (List.mem_cons_self ..)
    have step : wallsCells ((cy, cx) :: tl) g = wallsCells tl (wallsUpd g (cy, cx)) := rfl
    rw [step]
    set g' := wallsUpd g (cy, cx) with hg'
    have hsh := shape_wallsUpd g (cy, cx)
    have hfl := floor_wallsUpd g (cy, cx) hcin
    have hwc := wallCond_congr g g' hsh.1 hsh.2 hfl
    have hin' : ∀ d ∈ tl, d.1 < g'.length ∧ d.2 < (g'.getD d.1 []).length := by
      intro d hd
      rw [hsh.1, hsh.2 d.1]
      exact hin d (List.mem_cons_of_mem _ hd)
    have hother : ∀ a b, ¬(a = cy ∧ b = cx) → get2 g' a b = get2 g a b := by
      intro a b hne
      rw [hg']
      unfold wallsUpd
      split
      · exact get2_set2_ne g cy cx 2 a b hne
      · rfl
    rw [ih g' hnd.of_cons hin']
    by_cases hc : (y, x) = (cy, cx)
    · obtain ⟨hy, hx⟩ : y = cy ∧ x = cx := by simpa using hc
      subst hy
      subst hx
      have hctl : (y, x) ∉ tl := (List.nodup_cons.mp hnd).1
      rw [if_neg (fun hh => hctl hh.1)]
      rw [hg']
      unfold wallsUpd
      simp only
      rw [getPos_natCast g x y hcin.1 hcin.2]
      by_cases hcond : get2 g y x = 0 ∧ wallCond g (x : Int) (y : Int)
      · rw [if_pos hcond, if_pos ⟨List.mem_cons_self .., hcond.1, hcond.2⟩]
        exact get2_set2_same g y x 2 hcin.1 hcin.2
      · rw [if_neg hcond, if_neg (fun hh => hcond ⟨hh.2.1, hh.2.2⟩)]
    · have hne : ¬(y = cy ∧ x = cx) := fun hh => hc (Prod.ext hh.1 hh.2)
      rw [hother y x hne, hwc x y]
      by_cases hcond : get2 g y x = 0 ∧ wallCond g (x : Int) (y : Int)
      · by_cases hmem : (y, x) ∈ tl
        · rw [if_pos ⟨hmem, hcond.1, hcond.2⟩,
            if_pos ⟨List.mem_cons_of_mem _ hmem, hcond.1, hcond.2⟩]
        · rw [if_neg (fun hh => hmem hh.1), if_neg]
          intro hh
          rcases List.mem_cons.mp hh.1 with h1 | h1
          · exact hc h1
          · exact hmem h1
      · rw [if_neg (fun hh => hcond ⟨hh.2.1, hh.2.2⟩),
          if_neg (fun hh => hcond ⟨hh.2.1, hh.2.2⟩)]

theorem rowFold_eq_wallsCells (y : Nat) (W : Nat) (g : List (List Nat)) :
    (List.range W).foldl (fun g2 x => wallsUpd g2 (y, x)) g =
      wallsCells ((List.range W).map (fun x => (y, x))) g := by
  rw [wallsCells, List.foldl_map]

theorem nestedFold_eq_wallsCells (g0 : List (List Nat)) :
    ∀ (ys : List Nat) (g : List (List Nat)),
      (∀ y, (g.getD y []).length = (g0.getD y []).length) →
      ys.foldl (fun g y =>
          (List.range ((g.getD y []).length)).foldl (fun g2 x => wallsUpd g2 (y, x)) g) g =
        (ys.flatMap (fun y =>
          (List.range ((g0.getD y []).length)).map (fun x => (y, x)))).foldl wallsUpd g := by
  intro ys
  induction ys with
  | nil => intro g _; rfl
  | cons y ys ih =>
    intro g hsh
    rw [List.foldl_cons, List.flatMap_cons, List.foldl_append, hsh y,
      rowFold_eq_wallsCells y ((g0.getD y []).length) g]
    exact ih _ (fun y' => by
      rw [(shape_wallsCells _ g).2 y']
      exact hsh y')

theorem generateWalls_eq_wallsCells (g : List (List Nat)) :
    generateWalls g = wallsCells (cellsOf g) g := by
  rw [generateWalls, cellsOf, nestedFold_eq_wallsCells g (List.range g.length) g (fun _ => rfl)]
  rfl

/-- Pointwise description of `generate_walls`: an in-range cell becomes WALL
exactly when it is EMPTY with a satisfied neighbour condition (evaluated on
the grid as it was when the pass started); every other in-range cell keeps
its value. -/
theorem get2_generateWalls (g : List (List Nat)) (y x : Nat)
    (hy : y < g.length) (hx : x < (g.getD y []).length) :
    get2 (generateWalls g) y x =
      if get2 g y x = 0 ∧ wallCond g (x : Int) (y : Int) then 2 else get2 g y x := by
  rw [generateWalls_eq_wallsCells,
    get2_wallsCells (cellsOf g) g (nodup_cellsOf g)
      (fun c hc => (mem_cellsOf g c.1 c.2).mp hc) y x]
  by_cases hcond : get2 g y x = 0 ∧ wallCond g (x : Int) (y : Int)
  · rw [if_pos ⟨(mem_cellsOf g y x).mpr ⟨hy, hx⟩, hcond.1, hcond.2⟩, if_pos hcond]
  · rw [if_neg (fun hh => hcond ⟨hh.2.1, hh.2.2⟩), if_neg hcond]

theorem shape_generateWalls (g : List (List Nat)) :
    (generateWalls g).length = g.length ∧
      ∀ y, ((generateWalls g).getD y []).length = (g.getD y []).length := by
  rw [generateWalls_eq_wallsCells]
  exact shape_wallsCells (cellsOf g) g

/-- `generate_walls` never creates or destroys FLOOR cells. -/
theorem floor_generateWalls (g : List (List Nat)) :
    ∀ y x, get2 (generateWalls g) y x = 1 ↔ get2 g y x = 1 := by
  intro y x
  by_cases hin : y < g.length ∧ x < (g.getD y []).length
  · rw [get2_generateWalls g y x hin.1 hin.2]
    split
    · rename_i hcond
      rw [hcond.1]
      omega
    · exact Iff.rfl
  · rw [generateWalls_eq_wallsCells,
      get2_wallsCells (cellsOf g) g (nodup_cellsOf g)
        (fun c hc => (mem_cellsOf g c.1 c.2).mp hc) y x,
      if_neg (fun hh => hin ((mem_cellsOf g y x).mp hh.1))]

/-- The candidate directions `[(-1, 0), (1, 0), (0, -1), (0, 1)]` of
`generate_floor`, as `(dx, dy)`. -/
def possibleDirections : List (Int × Int) := [(-1, 0), (1, 0), (0, -1), (0, 1)]

/-- The mutable state of `generate_floor`'s outer loop: the grid, the cursor,
the position of the next unconsumed tape cell, the `can_walk` flag and the
remaining `max_steps` (with `-1` the `UNLIMITED_STEPS` sentinel). -/
structure WalkState where
  grid : List (List Nat)
  posX : Nat
  posY : Nat
  rng : Nat
  canWalk : Bool
  maxSteps : Int
deriving DecidableEq, Repr

/-- The inner `while len(check_directions) > 0` loop of one step attempt:
draw a direction with `choice`, remove it, skip it if out of bounds, and
accept it (move, carve FLOOR, report `can_walk = True`) if the target is
EMPTY or the intersection roll passes; report `can_walk = False` if all
directions are exhausted.  The tape is consumed exactly as the source does:
one cell per `choice`, plus one per `random()` roll (rolled only when the
target is non-EMPTY and the allowance is nonzero). -/
def tryDirs (tape : Nat → Nat) (alw : ℚ) (g : List (List Nat)) (px py k : Nat)
    (l : List (Int × Int)) : List (List Nat) × Nat × Nat × Nat × Bool :=
  if hl : l = [] then (g, px, py, k, false)
  else
    let d := choiceD tape k l (0, 0)
    have hd : d ∈ l := choiceD_mem tape k l (0, 0) hl
    have hlen : (l.erase d).length < l.length := by
      rw [List.length_erase_of_mem hd]
      exact Nat.pred_lt (fun h0 => hl (List.length_eq_zero.mp h0))
    let ty : Int := (py : Int) + d.2
    let tx : Int := (px : Int) + d.1
    if ty < 0 ∨ (g.length : Int) ≤ ty ∨ tx < 0 ∨ ((g.getD ty.toNat []).length : Int) ≤ tx then
      tryDirs tape alw g px py (k + 1) (l.erase d)
    else if get2 g ty.toNat tx.toNat = 0 then
      (set2 g ty.toNat tx.toNat 1, tx.toNat, ty.toNat, k + 1, true)
    else if alw ≠ 0 ∧ randomUnit tape (k + 1) ≤ alw then
      (set2 g ty.toNat tx.toNat 1, tx.toNat, ty.toNat, k + 2, true)
    else if alw ≠ 0 then
      tryDirs tape alw g px py (k + 2) (l.erase d)
    else
      tryDirs tape alw g px py (k + 1) (l.erase d)
termination_by l.length

/-- The guard of `generate_floor`'s outer loop:
`(max_steps == UNLIMITED_STEPS or max_steps > 0) and can_walk`. -/
def guardB (s : WalkState) : Bool :=
  (s.maxSteps == -1 || (0 : Int) < s.maxSteps) && s.canWalk

/-- One iteration of the outer loop (the identity once the guard fails):
run the inner direction loop, record the resulting state, and decrement
`max_steps` unless it is the unlimited sentinel. -/
def floorStep (tape : Nat → Nat) (alw : ℚ) (s : WalkState) : WalkState :=
  if guardB s then
    let r := tryDirs tape alw s.grid s.posX s.posY s.rng possibleDirections
    { grid := r.1, posX := r.2.1, posY := r.2.2.1, rng := r.2.2.2.1,
      canWalk := r.2.2.2.2,
      maxSteps := if s.maxSteps = -1 then s.maxSteps else s.maxSteps - 1 }
  else s

/-- `n` iterations of the outer loop. -/
def floorIter (tape : Nat → Nat) (alw : ℚ) : Nat → WalkState → WalkState
  | 0, s => s
  | n + 1, s => floorIter tape alw n (floorStep tape alw s)

/-- The outer loop with explicit fuel; `none` models a run whose guard is
still alive after `fuel` iterations (a loop that has not yet returned). -/
def floorRun (tape : Nat → Nat) (alw : ℚ) : Nat → WalkState → Option WalkState
  | 0, s => if guardB s then none else some s
  | n + 1, s => if guardB s then floorRun tape alw n (floorStep tape alw s) else some s

/-- `generate_floor` terminates within the given fuel: some iteration kills
the guard. -/
def carveTerminates (tape : Nat → Nat) (alw : ℚ) (s : WalkState) : Prop :=
  ∃ n : Nat, guardB (floorIter tape alw n s) = false

/-- The state `generate_floor` starts from: an all-EMPTY `H × W` grid,
cursor at `(W / 2, H / 2)` (the source's `len // 2` centre), a fresh tape,
`can_walk = True`.  The source raises `IndexError` for `H = 0` (handled in
`drunkWalk`). -/
def initState (W H : Nat) (ms : Int) : WalkState :=
  { grid := List.replicate H (List.replicate W 0), posX := W / 2, posY := H / 2,
    rng := 0, canWalk := true, maxSteps := ms }

/-- `DrunkWalk.__init__`: build the empty grid, run `generate_floor`, then
`generate_walls`; the result is the final `walk_map`.  `none` models both
the `IndexError` raised for a zero-height grid and a floor loop still
running after `fuel` iterations. -/
def drunkWalk (tape : Nat → Nat) (fuel W H : Nat) (alw : ℚ) (ms : Int) :
    Option (List (List Nat)) :=
  if H = 0 then none
  else (floorRun tape alw fuel (initState W H ms)).map (fun s => generateWalls s.grid)

theorem tryDirs_shape (tape : Nat → Nat) (alw : ℚ) (g : List (List Nat)) (px py k : Nat)
    (l : List (Int × Int)) :
    (tryDirs tape alw g px py k l).1.length = g.length ∧
      ∀ y, ((tryDirs tape alw g px py k l).1.getD y []).length = (g.getD y []).length := by
  induction k, l using tryDirs.induct tape alw g px py with
  | case1 k => rw [tryDirs]; simp
  | case2 k l hl d hd hlen ty tx hoob ih =>
    rw [tryDirs, dif_neg hl]
    dsimp only
    rw [if_pos hoob]
    exact ih
  | case3 k l hl d hd hlen ty tx hoob hempty =>
    rw [tryDirs, dif_neg hl]
    dsimp only
    rw [if_neg hoob, if_pos hempty]
    exact ⟨length_set2 .., fun y => rowLen_set2 ..⟩
  | case4 k l hl d hd hlen ty tx hoob hempty hroll =>
    rw [tryDirs, dif_neg hl]
    dsimp only
    rw [if_neg hoob, if_neg hempty, if_pos hroll]
    exact ⟨length_set2 .., fun y => rowLen_set2 ..⟩
  | case5 k l hl d hd hlen ty tx hoob hempty hroll halw ih =>
    rw [tryDirs, dif_neg hl]
    dsimp only
    rw [if_neg hoob, if_neg hempty, if_neg hroll, if_pos halw]
    exact ih
  | case6 k l hl d hd hlen ty tx hoob hempty hroll halw ih =>
    rw [tryDirs, dif_neg hl]
    dsimp only
    rw [if_neg hoob, if_neg hempty, if_neg hroll, if_neg halw]
    exact ih

/-- The inner direction loop writes nothing but FLOOR. -/
theorem tryDirs_writes (tape : Nat → Nat) (alw : ℚ) (g : List (List Nat)) (px py k : Nat)
    (l : List (Int × Int)) :
    ∀ y x, get2 (tryDirs tape alw g px py k l).1 y x = get2 g y x ∨
      get2 (tryDirs tape alw g px py k l).1 y x = 1 := by
  induction k, l using tryDirs.induct tape alw g px py with
  | case1 k => rw [tryDirs]; simp
  | case2 k l hl d hd hlen ty tx hoob ih =>
    rw [tryDirs, dif_neg hl]
    dsimp only
    rw [if_pos hoob]
    exact ih
  | case3 k l hl d hd hlen ty tx hoob hempty =>
    rw [tryDirs, dif_neg hl]
    dsimp only
    rw [if_neg hoob, if_pos hempty]
    intro y x
    by_cases hp : y = ty.toNat ∧ x = tx.toNat
    · right
      rw [hp.1, hp.2]
      push_neg at hoob
      exact get2_set2_same g ty.toNat tx.toNat 1 (by omega) (by omega)
    · left
      exact get2_set2_ne g ty.toNat tx.toNat 1 y x hp
  | case4 k l hl d hd hlen ty tx hoob hempty hroll =>
    rw [tryDirs, dif_neg hl]
    dsimp only
    rw [if_neg hoob, if_neg hempty, if_pos hroll]
    intro y x
    by_cases hp : y = ty.toNat ∧ x = tx.toNat
    · right
      rw [hp.1, hp.2]
      push_neg at hoob
      exact get2_set2_same g ty.toNat tx.toNat 1 (by omega) (by omega)
    · left
      exact get2_set2_ne g ty.toNat tx.toNat 1 y x hp
  | case5 k l hl d hd hlen ty tx hoob hempty hroll halw ih =>
    rw [tryDirs, dif_neg hl]
    dsimp only
    rw [if_neg hoob, if_neg hempty, if_neg hroll, if_pos halw]
    exact ih
  | case6 k l hl d hd hlen ty tx hoob hempty hroll halw ih =>
    rw [tryDirs, dif_neg hl]
    dsimp only
    rw [if_neg hoob, if_neg hempty, if_neg hroll, if_neg halw]
    exact ih

/-- The inner direction loop either leaves the cursor in place or moves it to
a bounds-checked cell. -/
theorem tryDirs_pos (tape : Nat → Nat) (alw : ℚ) (g : List (List Nat)) (px py k : Nat)
    (l : List (Int × Int)) :
    ((tryDirs tape alw g px py k l).2.1 = px ∧ (tryDirs tape alw g px py k l).2.2.1 = py) ∨
      ((tryDirs tape alw g px py k l).2.2.1 < g.length ∧
        (tryDirs tape alw g px py k l).2.1 <
          (g.getD (tryDirs tape alw g px py k l).2.2.1 []).length) := by
  induction k, l using tryDirs.induct tape alw g px py with
  | case1 k => rw [tryDirs]; simp
  | case2 k l hl d hd hlen ty tx hoob ih =>
    rw [tryDirs, dif_neg hl]
    dsimp only
    rw [if_pos hoob]
    exact ih
  | case3 k l hl d hd hlen ty tx hoob hempty =>
    rw [tryDirs, dif_neg hl]
    dsimp only
    rw [if_neg hoob, if_pos hempty]
    right
    push_neg at hoob
    show ty.toNat < g.length ∧ tx.toNat < (g.getD ty.toNat []).length
    exact ⟨by omega, by omega⟩
  | case4 k l hl d hd hlen ty tx hoob hempty hroll =>
    rw [tryDirs, dif_neg hl]
    dsimp only
    rw [if_neg hoob, if_neg hempty, if_pos hroll]
    right
    push_neg at hoob
    show ty.toNat < g.length ∧ tx.toNat < (g.getD ty.toNat []).length
    exact ⟨by omega, by omega⟩
  | case5 k l hl d hd hlen ty tx hoob hempty hroll halw ih =>
    rw [tryDirs, dif_neg hl]
    dsimp only
    rw [if_neg hoob, if_neg hempty, if_neg hroll, if_pos halw]
    exact ih
  | case6 k l hl d hd hlen ty tx hoob hempty hroll halw ih =>
    rw [tryDirs, dif_neg hl]
    dsimp only
    rw [if_neg hoob, if_neg hempty, if_neg hroll, if_neg halw]
    exact ih

/-- With a zero intersection allowance, an accepted step always carves a
previously EMPTY cell, so the number of EMPTY cells strictly drops. -/
theorem tryDirs_alw0 (tape : Nat → Nat) (g : List (List Nat)) (px py k : Nat)
    (l : List (Int × Int)) :
    (tryDirs tape 0 g px py k l).2.2.2.2 = true →
      emptyCount (tryDirs tape 0 g px py k l).1 < emptyCount g := by
  induction k, l using tryDirs.induct tape 0 g px py with
  | case1 k =>
    rw [tryDirs]
    intro h
    simp at h
  | case2 k l hl d hd hlen ty tx hoob ih =>
    rw [tryDirs, dif_neg hl]
    dsimp only
    rw [if_pos hoob]
    exact ih
  | case3 k l hl d hd hlen ty tx hoob hempty =>
    rw [tryDirs, dif_neg hl]
    dsimp only
    rw [if_neg hoob, if_pos hempty]
    intro _
    push_neg at hoob
    exact emptyCount_set2_lt g ty.toNat tx.toNat 1 (by omega) (by omega) hempty one_ne_zero
  | case4 k l hl d hd hlen ty tx hoob hempty hroll =>
    exact absurd rfl hroll.1
  | case5 k l hl d hd hlen ty tx hoob hempty hroll halw ih =>
    exact absurd rfl halw
  | case6 k l hl d hd hlen ty tx hoob hempty hroll halw ih =>
    rw [tryDirs, dif_neg hl]
    dsimp only
    rw [if_neg hoob, if_neg hempty, if_neg hroll, if_neg halw]
    exact ih

/-- With allowance 1 every in-bounds candidate is accepted (a roll in `[0,1)`
never exceeds 1), so a failed attempt means every remaining direction was out
of bounds. -/
theorem tryDirs_false_alw1 (tape : Nat → Nat) (g : List (List Nat)) (px py k : Nat)
    (l : List (Int × Int)) :
    (tryDirs tape 1 g px py k l).2.2.2.2 = false →
      ∀ dd ∈ l, ((py : Int) + dd.2 < 0 ∨ (g.length : Int) ≤ (py : Int) + dd.2 ∨
        (px : Int) + dd.1 < 0 ∨
        ((g.getD ((py : Int) + dd.2).toNat []).length : Int) ≤ (px : Int) + dd.1) := by
  induction k, l using tryDirs.induct tape 1 g px py with
  | case1 k =>
    intro _ dd hdd
    cases hdd
  | case2 k l hl d hd hlen ty tx hoob ih =>
    rw [tryDirs, dif_neg hl]
    dsimp only
    rw [if_pos hoob]
    intro hfalse dd hdd
    by_cases hdd2 : dd = d
    · rw [hdd2]
      exact hoob
    · exact ih hfalse dd ((List.mem_erase_of_ne hdd2).mpr hdd)
  | case3 k l hl d hd hlen ty tx hoob hempty =>
    rw [tryDirs, dif_neg hl]
    dsimp only
    rw [if_neg hoob, if_pos hempty]
    intro hfalse
    simp at hfalse
  | case4 k l hl d hd hlen ty tx hoob hempty hroll =>
    rw [tryDirs, dif_neg hl]
    dsimp only
    rw [if_neg hoob, if_neg hempty, if_pos hroll]
    intro hfalse
    simp at hfalse
  | case5 k l hl d hd hlen ty tx hoob hempty hroll halw ih =>
    exact absurd ⟨one_ne_zero, (randomUnit_lt_one tape (k + 1)).le⟩ hroll
  | case6 k l hl d hd hlen ty tx hoob hempty hroll halw ih =>
    exact absurd one_ne_zero halw

/-- The eight neighbour coordinates of `(x, y)`, in the source's order (with
its duplicates removed). -/
def neigh8 (x y : Int) : List (Int × Int) :=
  [(x - 1, y), (x + 1, y), (x, y - 1), (x, y + 1),
    (x - 1, y - 1), (x + 1, y - 1), (x - 1, y + 1), (x + 1, y + 1)]

/-- The source's 12-term disjunction holds exactly when one of the 8
neighbours is FLOOR. -/
theorem wallCond_iff_exists (g : List (List Nat)) (x y : Int) :
    wallCond g x y = true ↔ ∃ p ∈ neigh8 x y, getPosInner g p.1 p.2 = true := by
  simp only [wallCond, Bool.or_eq_true, neigh8, List.exists_mem_cons_iff,
    List.not_mem_nil, false_and, exists_false, or_false]
  tauto

/-- The cursor invariant: the cursor denotes an in-range cell. -/
def WalkInB (s : WalkState) : Prop :=
  s.posY < s.grid.length ∧ s.posX < (s.grid.getD s.posY []).length

theorem floorStep_not_guard (tape : Nat → Nat) (alw : ℚ) (s : WalkState)
    (h : guardB s = false) : floorStep tape alw s = s := by
  rw [floorStep, if_neg]
  simp [h]

theorem floorStep_shape (tape : Nat → Nat) (alw : ℚ) (s : WalkState) :
    (floorStep tape alw s).grid.length = s.grid.length ∧
      ∀ y, ((floorStep tape alw s).grid.getD y []).length = (s.grid.getD y []).length := by
  rw [floorStep]
  split
  · exact tryDirs_shape tape alw s.grid s.posX s.posY s.rng possibleDirections
  · exact ⟨rfl, fun _ => rfl⟩

theorem floorStep_floor_mono (tape : Nat → Nat) (alw : ℚ) (s : WalkState) (y x : Nat)
    (h : get2 s.grid y x = 1) : get2 (floorStep tape alw s).grid y x = 1 := by
  rw [floorStep]
  split
  · rcases tryDirs_writes tape alw s.grid s.posX s.posY s.rng possibleDirections y x with
      hw | hw
    · rw [hw]; exact h
    · exact hw
  · exact h

theorem floorStep_inb (tape : Nat → Nat) (alw : ℚ) (s : WalkState) (h : WalkInB s) :
    WalkInB (floorStep tape alw s) := by
  rw [floorStep]
  split
  · dsimp only [WalkInB]
    have hs := tryDirs_shape tape alw s.grid s.posX s.posY s.rng possibleDirections
    rcases tryDirs_pos tape alw s.grid s.posX s.posY s.rng possibleDirections with hp | hp
    · rw [hp.1, hp.2, hs.1, hs.2 s.posY]
      exact h
    · rw [hs.1, hs.2]
      exact hp
  · exact h

theorem floorStep_ms (tape : Nat → Nat) (alw : ℚ) (s : WalkState) (h : guardB s = true) :
    (floorStep tape alw s).maxSteps = if s.maxSteps = -1 then -1 else s.maxSteps - 1 := by
  rw [floorStep, if_pos h]
  by_cases hms : s.maxSteps = -1
  · simp [hms]
  · simp [hms]

theorem floorStep_canWalk (tape : Nat → Nat) (alw : ℚ) (s : WalkState) (h : guardB s = true) :
    (floorStep tape alw s).canWalk =
      (tryDirs tape alw s.grid s.posX s.posY s.rng possibleDirections).2.2.2.2 := by
  rw [floorStep, if_pos h]

theorem floorStep_alw0 (tape : Nat → Nat) (s : WalkState)
    (h1 : guardB s = true) (h2 : guardB (floorStep tape 0 s) = true) :
    emptyCount (floorStep tape 0 s).grid < emptyCount s.grid := by
  have hcw : (floorStep tape 0 s).canWalk = true := by
    rw [guardB, Bool.and_eq_true] at h2
    exact h2.2
  rw [floorStep_canWalk tape 0 s h1] at hcw
  have := tryDirs_alw0 tape s.grid s.posX s.posY s.rng possibleDirections hcw
  rw [floorStep, if_pos h1]
  exact this

theorem floorIter_succ (tape : Nat → Nat) (alw : ℚ) (n : Nat) (s : WalkState) :
    floorIter tape alw (n + 1) s = floorStep tape alw (floorIter tape alw n s) := by
  induction n generalizing s with
  | zero => rfl
  | succ n ih =>
    rw [show floorIter tape alw (n + 1 + 1) s =
      floorIter tape alw (n + 1) (floorStep tape alw s) from rfl, ih]
    rfl

theorem floorIter_guard_false (tape : Nat → Nat) (alw : ℚ) (n : Nat) (s : WalkState)
    (h : guardB s = false) : floorIter tape alw n s = s := by
  induction n with
  | zero => rfl
  | succ n ih => rw [floorIter_succ, ih, floorStep_not_guard tape alw s h]

theorem floorIter_add (tape : Nat → Nat) (alw : ℚ) (a b : Nat) (s : WalkState) :
    floorIter tape alw (a + b) s = floorIter tape alw b (floorIter tape alw a s) := by
  induction b with
  | zero => rfl
  | succ b ih => rw [← Nat.add_assoc, floorIter_succ, ih, floorIter_succ]

theorem floorIter_shape (tape : Nat → Nat) (alw : ℚ) (n : Nat) (s : WalkState) :
    (floorIter tape alw n s).grid.length = s.grid.length ∧
      ∀ y, ((floorIter tape alw n s).grid.getD y []).length = ((s.grid.getD y []).length) := by
  induction n with
  | zero => exact ⟨rfl, fun _ => rfl⟩
  | succ n ih =>
    rw [floorIter_succ]
    have hs := floorStep_shape tape alw (floorIter tape alw n s)
    exact ⟨hs.1.trans ih.1, fun y => (hs.2 y).trans (ih.2 y)⟩

theorem floorIter_inb (tape : Nat → Nat) (alw : ℚ) (n : Nat) (s : WalkState)
    (h : WalkInB s) : WalkInB (floorIter tape alw n s) := by
  induction n with
  | zero => exact h
  | succ n ih =>
    rw [floorIter_succ]
    exact floorStep_inb tape alw _ ih

theorem floorIter_floor_mono (tape : Nat → Nat) (alw : ℚ) (n : Nat) (s : WalkState)
    (y x : Nat) (h : get2 s.grid y x = 1) : get2 (floorIter tape alw n s).grid y x = 1 := by
  induction n with
  | zero => exact h
  | succ n ih =>
    rw [floorIter_succ]
    exact floorStep_floor_mono tape alw _ y x ih

/-- With a non-negative finite step budget `m`, the outer loop's guard is dead
after at most `m` iterations: `max_steps` is decremented once per attempt and
the guard fails at zero (or earlier, if the walk got stuck). -/
theorem guard_dead_of_budget (tape : Nat → Nat) (alw : ℚ) :
    ∀ (n : Nat) (s : WalkState), 0 ≤ s.maxSteps → s.maxSteps ≤ (n : Int) →
      guardB (floorIter tape alw n s) = false := by
  intro n
  induction n with
  | zero =>
    intro s h0 hn
    have : s.maxSteps = 0 := le_antisymm (by exact_mod_cast hn) h0
    simp [floorIter, guardB, this]
  | succ n ih =>
    intro s h0 hn
    by_cases hg : guardB s = true
    · have hms : ¬ s.maxSteps = -1 := by omega
      have hstep : (floorStep tape alw s).maxSteps = s.maxSteps - 1 := by
        rw [floorStep_ms tape alw s hg, if_neg hms]
      have hpos : 0 < s.maxSteps := by
        rw [guardB, Bool.and_eq_true, Bool.or_eq_true] at hg
        rcases hg.1 with h | h
        · exact absurd (eq_of_beq h) hms
        · exact of_decide_eq_true h
      rw [show floorIter tape alw (n + 1) s = floorIter tape alw n (floorStep tape alw s)
        from rfl]
      apply ih
      · omega
      · rw [hstep]
        push_cast [Nat.cast_succ] at hn ⊢
        omega
    · rw [floorIter_guard_false tape alw (n + 1) s (Bool.eq_false_iff.mpr hg)]
      exact Bool.eq_false_iff.mpr hg

/-- With `intersection_allowance = 0` the outer loop always halts: each
accepted attempt carves a fresh EMPTY cell and a rejected attempt kills the
guard. -/
theorem guard_dead_alw0 (tape : Nat → Nat) :
    ∀ (N : Nat) (s : WalkState), emptyCount s.grid ≤ N →
      ∃ n, guardB (floorIter tape 0 n s) = false := by
  intro N
  induction N with
  | zero =>
    intro s hN
    by_cases hg : guardB s = true
    · by_cases hg' : guardB (floorStep tape 0 s) = true
      · exact absurd (floorStep_alw0 tape s hg hg') (by omega)
      · exact ⟨1, by rw [floorIter_succ]; exact Bool.eq_false_iff.mpr hg'⟩
    · exact ⟨0, Bool.eq_false_iff.mpr hg⟩
  | succ N ih =>
    intro s hN
    by_cases hg : guardB s = true
    · by_cases hg' : guardB (floorStep tape 0 s) = true
      · have hlt := floorStep_alw0 tape s hg hg'
        obtain ⟨n, hn⟩ := ih (floorStep tape 0 s) (by omega)
        exact ⟨n + 1, by
          rw [show floorIter tape 0 (n + 1) s = floorIter tape 0 n (floorStep tape 0 s)
            from rfl]
          exact hn⟩
      · exact ⟨1, by rw [floorIter_succ]; exact Bool.eq_false_iff.mpr hg'⟩
    · exact ⟨0, Bool.eq_false_iff.mpr hg⟩

/-- With allowance 1 and the unlimited sentinel, a live state whose cursor row
has at least two cells steps to another live state: some horizontal direction
is in bounds, and with allowance 1 every in-bounds candidate is accepted. -/
theorem floorStep_alw1_live (tape : Nat → Nat) (s : WalkState)
    (hms : s.maxSteps = -1) (hcw : s.canWalk = true) (hinb : WalkInB s)
    (hrow2 : 2 ≤ (s.grid.getD s.posY []).length) :
    (floorStep tape 1 s).canWalk = true ∧ (floorStep tape 1 s).maxSteps = -1 := by
  have hg : guardB s = true := by simp [guardB, hms, hcw]
  constructor
  · rw [floorStep_canWalk tape 1 s hg]
    by_contra hfalse
    have hall := tryDirs_false_alw1 tape s.grid s.posX s.posY s.rng possibleDirections
      (Bool.eq_false_iff.mpr hfalse)
    by_cases hcase : s.posX + 1 < (s.grid.getD s.posY []).length
    · have hoob := hall (1, 0) (by simp [possibleDirections])
      simp only [Int.add_zero, Int.toNat_natCast] at hoob
      obtain ⟨h1, h2⟩ := hinb
      omega
    · have hoob := hall (-1, 0) (by simp [possibleDirections])
      simp only [Int.add_zero, Int.toNat_natCast] at hoob
      obtain ⟨h1, h2⟩ := hinb
      omega
  · rw [floorStep_ms tape 1 s hg, if_pos hms]

end DrunkWalk

/-! ### Voronoi (`src/mapgen/voronoi.py`)

Sentinels: `MAP_OUT_OF_BOUNDS = -1`, `MAP_EMPTY = 0`. -/

namespace Voronoi

/-- `Area`: an id, the origin seed position, the list of claimed positions
(appended `(y, x)`-swapped by `init_seeds`), and the neighbour ids recorded at
contested claims.  The sentinel `Area(-1, (-1, -1))` used for unknown ids
forces the id and origin coordinates to be integers. -/
structure Area where
  id : Int
  origin_position : Int × Int
  positions : List (Nat × Nat)
  neighbours : List Nat
deriving DecidableEq, Repr

/-- `Area(-1, (-1, -1))`, the default of `areas.get`. -/
def sentinelArea : Area := ⟨-1, (-1, -1), [], []⟩

/-- A fully constructed `Voronoi` instance: `map_size`, `map_data` and the
`areas` registry (a partial map from ids). -/
structure VState where
  map_size : Nat × Nat
  map_data : List (List Nat)
  areas : Nat → Option Area

/-- The `num_seeds` draws `(randint(0, W-1), randint(0, H-1))`, seed `i`
consuming tape cells `2*i` and `2*i+1`. -/
def drawSeeds (tape : Nat → Nat) (n W H : Nat) : List (Nat × Nat) :=
  (List.range n).map (fun i =>
    (randint tape (2 * i) 0 (W - 1), randint tape (2 * i + 1) 0 (H - 1)))

/-- `self.areas[i+1] = Area(i+1, seed_position)` for `i in range(n)`. -/
def initAreas (seeds : List (Nat × Nat)) : Nat → Option Area := fun id =>
  if 1 ≤ id then
    (seeds[id - 1]?).map (fun p => ⟨(id : Int), ((p.1 : Int), (p.2 : Int)), [], []⟩)
  else none

/-- `open_positions.append((i+1, [seed_position]))` for `i in range(n)`. -/
def initOps (seeds : List (Nat × Nat)) : List (Nat × List (Nat × Nat)) :=
  (List.range seeds.length).map (fun i => (i + 1, [seeds.getD i (0, 0)]))

/-- The `(dy, dx)` offsets of the expansion loop
`for y in range(-1, 2): for x in range(-1, 2)`, in iteration order. -/
def offsets9 : List (Int × Int) :=
  [(-1, -1), (-1, 0), (-1, 1), (0, -1), (0, 0), (0, 1), (1, -1), (1, 0), (1, 1)]

/-- The expansion of a freshly claimed position: enqueue every in-bounds
`(tot_x, tot_y)` not already in `new_positions`, in offset order. -/
def expandFrom (W H : Nat) (p : Nat × Nat) (acc : List (Nat × Nat)) :
    List (Nat × Nat) :=
  offsets9.foldl (fun acc d =>
    let tx : Int := d.2 + (p.1 : Int)
    let ty : Int := d.1 + (p.2 : Int)
    if ty < 0 ∨ (H : Int) ≤ ty ∨ tx < 0 ∨ (W : Int) ≤ tx then acc
    else if (tx.toNat, ty.toNat) ∈ acc then acc
    else acc ++ [(tx.toNat, ty.toNat)]) acc

/-- In-place update of one registry entry. -/
def updArea (ar : Nat → Option Area) (id : Nat) (f : Area → Area) :
    Nat → Option Area :=
  fun j => if j = id then (ar j).map f else ar j

/-- Processing of one frontier position of region `id`: claim a free cell
(write the id, append the `(y, x)`-swapped position, expand), or record the
owner of an already-claimed cell as a neighbour. -/
def procPos (W H : Nat) (id : Nat)
    (st : List (List Nat) × (Nat → Option Area)) (acc : List (Nat × Nat))
    (p : Nat × Nat) :
    (List (List Nat) × (Nat → Option Area)) × List (Nat × Nat) :=
  if get2 st.1 p.2 p.1 = 0 then
    ((set2 st.1 p.2 p.1 id,
      updArea st.2 id (fun a => { a with positions := a.positions ++ [(p.2, p.1)] })),
      expandFrom W H p acc)
  else
    match st.2 id with
    | some a =>
        if get2 st.1 p.2 p.1 ∉ a.neighbours ∧ ((get2 st.1 p.2 p.1 : Nat) : Int) ≠ a.id then
          ((st.1, updArea st.2 id
            (fun a => { a with neighbours := a.neighbours ++ [get2 st.1 p.2 p.1] })), acc)
        else ((st.1, st.2), acc)
    | none => ((st.1, st.2), acc)

/-- Processing of one `(seed_id, positions)` frontier entry: fold `procPos`
over the positions, accumulating `new_positions` from `[]`. -/
def procRegion (W H : Nat) (st : List (List Nat) × (Nat → Option Area))
    (e : Nat × List (Nat × Nat)) :
    (List (List Nat) × (Nat → Option Area)) × List (Nat × Nat) :=
  e.2.foldl (fun acc p => procPos W H e.1 acc.1 acc.2 p) (st, [])

/-- One round of the growth loop over all of `open_positions`, collecting the
`new_checks` entries whose `new_positions` are nonempty. -/
def procRound (W H : Nat) (st : List (List Nat) × (Nat → Option Area))
    (ops : List (Nat × List (Nat × Nat))) :
    (List (List Nat) × (Nat → Option Area)) × List (Nat × List (Nat × Nat)) :=
  ops.foldl (fun acc e =>
    let r := procRegion W H acc.1 e
    (r.1, if r.2 ≠ [] then acc.2 ++ [(e.1, r.2)] else acc.2)) (st, [])

/-- The `while len(open_positions) > 0` loop, with explicit fuel; `none`
models a loop still running after `fuel` rounds. -/
def growLoop (W H : Nat) :
    Nat → List (List Nat) × (Nat → Option Area) → List (Nat × List (Nat × Nat)) →
      Option (List (List Nat) × (Nat → Option Area))
  | fuel, st, ops =>
    if ops = [] then some st
    else
      match fuel with
      | 0 => none
      | fuel + 1 =>
          let r := procRound W H st ops
          growLoop W H fuel r.1 r.2

/-- `Voronoi.__init__`: draw the seeds, build the all-zero map, seed the
registry and frontiers, and grow until every frontier is empty.  `none`
models the `ValueError` of `randint(0, -1)` (a zero dimension with at least
one seed) and a growth loop that has not finished within its fuel (which
`growLoop_some` below shows cannot happen). -/
def voronoi (tape : Nat → Nat) (n W H : Nat) : Option VState :=
  if 1 ≤ n ∧ (W = 0 ∨ H = 0) then none
  else
    let seeds := drawSeeds tape n W H
    let g0 := List.replicate H (List.replicate W 0)
    (growLoop W H (W * H + 2) (g0, initAreas seeds) (initOps seeds)).map
      (fun st => ⟨(W, H), st.1, st.2⟩)

/-- `get_area_from_position`: bounds-checked id lookup,
`MAP_OUT_OF_BOUNDS = -1` outside the map. -/
def getAreaFromPosition (st : VState) (p : Int × Int) : Int :=
  if p.2 < 0 ∨ (st.map_size.2 : Int) ≤ p.2 ∨ p.1 < 0 ∨ (st.map_size.1 : Int) ≤ p.1 then -1
  else Int.ofNat (get2 st.map_data p.2.toNat p.1.toNat)

/-- `get_area`: the registry entry, or the sentinel for an unknown id. -/
def getArea (st : VState) (id : Nat) : Area :=
  (st.areas id).getD sentinelArea

/-- `get_positions_from_area`: the member list, `[]` for an unknown id. -/
def getPositionsFromArea (st : VState) (id : Nat) : List (Nat × Nat) :=
  (getArea st id).positions

theorem foldl_preserve {α β : Type} (P : β → Prop) (f : β → α → β) (l : List α)
    (b : β) (hb : P b) (hstep : ∀ b a, P b → P (f b a)) : P (l.foldl f b) := by
  induction l generalizing b with
  | nil => exact hb
  | cons a tl ih => exact ih (f b a) (hstep b a hb)

theorem expandFrom_bounds (W H : Nat) (p : Nat × Nat) (acc : List (Nat × Nat))
    (hacc : ∀ q ∈ acc, q.1 < W ∧ q.2 < H) :
    ∀ q ∈ expandFrom W H p acc, q.1 < W ∧ q.2 < H := by
  unfold expandFrom
  apply foldl_preserve (fun acc => ∀ q ∈ acc, q.1 < W ∧ q.2 < H) _ offsets9 acc hacc
  intro b d hbnd
  dsimp only
  split
  · exact hbnd
  · split
    · exact hbnd
    · rename_i hin _
      intro q hq
      rcases List.mem_append.mp hq with h | h
      · exact hbnd q h
      · rw [List.mem_singleton.mp h]
        push_neg at hin
        exact ⟨by omega, by omega⟩

/-- The invariant tying the grid to the registry throughout growth: the grid
is a well-formed `H × W` grid holding ids at most `n`; the registry is
defined exactly on `1..n`; each entry's stored id is its key and its member
list holds exactly the `(y, x)`-swaps of the cells claimed by that id. -/
def Inv (n W H : Nat) (st : List (List Nat) × (Nat → Option Area)) : Prop :=
  (st.1.length = H ∧ ∀ y, y < H → (st.1.getD y []).length = W) ∧
  (∀ y x, get2 st.1 y x ≤ n) ∧
  (∀ id, 1 ≤ id → id ≤ n → (st.2 id).isSome = true) ∧
  (∀ id, id = 0 ∨ n < id → st.2 id = none) ∧
  (∀ id a, st.2 id = some a → a.id = (id : Int) ∧
    ∀ q : Nat × Nat, q ∈ a.positions ↔ get2 st.1 q.1 q.2 = id)

/-- The frontier invariant: every queued entry has a valid region id and only
in-bounds positions. -/
def OpsInv (n W H : Nat) (ops : List (Nat × List (Nat × Nat))) : Prop :=
  ∀ e ∈ ops, (1 ≤ e.1 ∧ e.1 ≤ n) ∧ ∀ q ∈ e.2, q.1 < W ∧ q.2 < H

theorem procPos_inv (n W H id : Nat)
    (st : List (List Nat) × (Nat → Option Area)) (acc : List (Nat × Nat))
    (p : Nat × Nat) (hinv : Inv n W H st) (hid1 : 1 ≤ id) (hid2 : id ≤ n)
    (hp : p.1 < W ∧ p.2 < H) (hacc : ∀ q ∈ acc, q.1 < W ∧ q.2 < H) :
    Inv n W H (procPos W H id st acc p).1 ∧
      ∀ q ∈ (procPos W H id st acc p).2, q.1 < W ∧ q.2 < H := by
  obtain ⟨hwf, hvals, hsome, hnone, hcontent⟩ := hinv
  by_cases hempty : get2 st.1 p.2 p.1 = 0
  · rw [procPos, if_pos hempty]
    have hyb : p.2 < st.1.length := by rw [hwf.1]; exact hp.2
    have hxb : p.1 < (st.1.getD p.2 []).length := by rw [hwf.2 p.2 hp.2]; exact hp.1
    refine ⟨⟨⟨?_, ?_⟩, ?_, ?_, ?_, ?_⟩, expandFrom_bounds W H p acc hacc⟩
    · rw [length_set2]; exact hwf.1
    · intro y hy; rw [rowLen_set2]; exact hwf.2 y hy
    · intro y x
      by_cases hc : y = p.2 ∧ x = p.1
      · rw [hc.1, hc.2, get2_set2_same st.1 p.2 p.1 id hyb hxb]
        exact hid2
      · rw [get2_set2_ne st.1 p.2 p.1 id y x hc]
        exact hvals y x
    · intro id' h1 h2
      show (updArea st.2 id _ id').isSome = true
      unfold updArea
      by_cases hj : id' = id
      · rw [if_pos hj, hj]
        rcases Option.isSome_iff_exists.mp (hsome id hid1 hid2) with ⟨a, ha⟩
        rw [ha]
        rfl
      · rw [if_neg hj]
        exact hsome id' h1 h2
    · intro id' h
      show updArea st.2 id _ id' = none
      unfold updArea
      by_cases hj : id' = id
      · exact absurd (hj ▸ h) (by omega)
      · rw [if_neg hj]
        exact hnone id' h
    · intro id' a' heq
      dsimp only
      simp only [updArea] at heq
      by_cases hj : id' = id
      · subst hj
        rw [if_pos rfl] at heq
        rcases Option.map_eq_some'.mp heq with ⟨a, ha, haf⟩
        obtain ⟨haid, hamem⟩ := hcontent id' a ha
        constructor
        · rw [← haf]
          exact haid
        · intro q
          rw [← haf]
          simp only [List.mem_append, List.mem_singleton]
          by_cases hq : q = (p.2, p.1)
          · rw [hq]
            constructor
            · intro _
              exact get2_set2_same st.1 p.2 p.1 id' hyb hxb
            · intro _
              exact Or.inr rfl
          · constructor
            · intro hmem
              rcases hmem with hmem | hmem
              · rw [get2_set2_ne st.1 p.2 p.1 id' q.1 q.2
                  (fun hh => hq (Prod.ext hh.1 hh.2))]
                exact (hamem q).mp hmem
              · exact absurd hmem hq
            · intro hg
              rw [get2_set2_ne st.1 p.2 p.1 id' q.1 q.2
                (fun hh => hq (Prod.ext hh.1 hh.2))] at hg
              exact Or.inl ((hamem q).mpr hg)
      · rw [if_neg hj] at heq
        obtain ⟨haid, hamem⟩ := hcontent id' a' heq
        have hid' : 1 ≤ id' ∧ id' ≤ n := by
          by_contra hcon
          rw [hnone id' (by omega)] at heq
          cases heq
        refine ⟨haid, fun q => ?_⟩
        by_cases hq : q = (p.2, p.1)
        · rw [hq]
          rw [show get2 (set2 st.1 p.2 p.1 id) (p.2, p.1).1 (p.2, p.1).2 = id from
            get2_set2_same st.1 p.2 p.1 id hyb hxb]
          constructor
          · intro hmem
            have h0 : get2 st.1 p.2 p.1 = id' := (hamem (p.2, p.1)).mp hmem
            rw [hempty] at h0
            omega
          · intro hg
            exact absurd hg.symm hj
        · rw [get2_set2_ne st.1 p.2 p.1 id q.1 q.2 (fun hh => hq (Prod.ext hh.1 hh.2))]
          exact hamem q
  · rw [procPos, if_neg hempty]
    cases hmatch : st.2 id with
    | none =>
        exact ⟨⟨hwf, hvals, hsome, hnone, hcontent⟩, hacc⟩
    | some a =>
        dsimp only
        split
        · refine ⟨⟨hwf, hvals, ?_, ?_, ?_⟩, hacc⟩
          · intro id' h1 h2
            show (updArea st.2 id _ id').isSome = true
            unfold updArea
            by_cases hj : id' = id
            · rw [if_pos hj, hj, hmatch]
              rfl
            · rw [if_neg hj]
              exact hsome id' h1 h2
          · intro id' h
            show updArea st.2 id _ id' = none
            unfold updArea
            by_cases hj : id' = id
            · subst hj
              rw [hnone id' h] at hmatch
              simp at hmatch
            · rw [if_neg hj]
              exact hnone id' h
          · intro id' a' heq
            dsimp only
            simp only [updArea] at heq
            by_cases hj : id' = id
            · subst hj
              rw [if_pos rfl, hmatch] at heq
              simp only [Option.map_some'] at heq
              obtain ⟨haid, hamem⟩ := hcontent id' a hmatch
              obtain rfl := Option.some.inj heq
              exact ⟨haid, hamem⟩
            · rw [if_neg hj] at heq
              exact hcontent id' a' heq
        · exact ⟨⟨hwf, hvals, hsome, hnone, hcontent⟩, hacc⟩

/-- A frontier position either claims its cell, strictly decreasing the
number of unclaimed cells, or leaves both the grid and the accumulated
`new_positions` untouched (the neighbour branch touches only the registry). -/
theorem procPos_cases (W H id : Nat)
    (st : List (List Nat) × (Nat → Option Area)) (acc : List (Nat × Nat))
    (p : Nat × Nat)
    (hwf : st.1.length = H ∧ ∀ y, y < H → (st.1.getD y []).length = W)
    (hid1 : 1 ≤ id) (hp : p.1 < W ∧ p.2 < H) :
    emptyCount (procPos W H id st acc p).1.1 < emptyCount st.1 ∨
      ((procPos W H id st acc p).1.1 = st.1 ∧ (procPos W H id st acc p).2 = acc) := by
  by_cases hempty : get2 st.1 p.2 p.1 = 0
  · rw [procPos, if_pos hempty]
    left
    exact emptyCount_set2_lt st.1 p.2 p.1 id (by rw [hwf.1]; exact hp.2)
      (by rw [hwf.2 p.2 hp.2]; exact hp.1) hempty (by omega)
  · rw [procPos, if_neg hempty]
    right
    cases st.2 id with
    | none => exact ⟨rfl, rfl⟩
    | some a =>
        dsimp only
        split
        · exact ⟨rfl, rfl⟩
        · exact ⟨rfl, rfl⟩

theorem procRegionAux_inv (n W H id : Nat) (hid1 : 1 ≤ id) (hid2 : id ≤ n) :
    ∀ (ps : List (Nat × Nat)) (st : List (List Nat) × (Nat → Option Area))
      (acc : List (Nat × Nat)),
      Inv n W H st → (∀ q ∈ acc, q.1 < W ∧ q.2 < H) → (∀ q ∈ ps, q.1 < W ∧ q.2 < H) →
      Inv n W H (ps.foldl (fun acc p => procPos W H id acc.1 acc.2 p) (st, acc)).1 ∧
        ∀ q ∈ (ps.foldl (fun acc p => procPos W H id acc.1 acc.2 p) (st, acc)).2,
          q.1 < W ∧ q.2 < H := by
  intro ps
  induction ps with
  | nil => exact fun st acc hinv hacc _ => ⟨hinv, hacc⟩
  | cons p tl ih =>
    intro st acc hinv hacc hps
    rw [List.foldl_cons]
    have hstep := procPos_inv n W H id st acc p hinv hid1 hid2
      (hps p (List.mem_cons_self ..)) hacc
    have := ih (procPos W H id st acc p).1 (procPos W H id st acc p).2
      hstep.1 hstep.2 (fun q hq => hps q (List.mem_cons_of_mem _ hq))
    exact this

theorem procRegionAux_zero (n W H id : Nat) (hid1 : 1 ≤ id) (hid2 : id ≤ n) :
    ∀ (ps : List (Nat × Nat)) (st : List (List Nat) × (Nat → Option Area))
      (acc : List (Nat × Nat)),
      Inv n W H st → (∀ q ∈ acc, q.1 < W ∧ q.2 < H) → (∀ q ∈ ps, q.1 < W ∧ q.2 < H) →
      emptyCount (ps.foldl (fun acc p => procPos W H id acc.1 acc.2 p) (st, acc)).1.1 ≤
          emptyCount st.1 ∧
        ((ps.foldl (fun acc p => procPos W H id acc.1 acc.2 p) (st, acc)).2 ≠ [] →
          acc ≠ [] ∨
            emptyCount (ps.foldl (fun acc p => procPos W H id acc.1 acc.2 p) (st, acc)).1.1 <
              emptyCount st.1) := by
  intro ps
  induction ps with
  | nil => exact fun st acc _ _ _ => ⟨Nat.le_refl _, fun h2 => Or.inl h2⟩
  | cons p tl ih =>
    intro st acc hinv hacc hps
    rw [List.foldl_cons]
    have hstep := procPos_inv n W H id st acc p hinv hid1 hid2
      (hps p (List.mem_cons_self ..)) hacc
    have hih := ih (procPos W H id st acc p).1 (procPos W H id st acc p).2
      hstep.1 hstep.2 (fun q hq => hps q (List.mem_cons_of_mem _ hq))
    rcases procPos_cases W H id st acc p hinv.1 hid1 (hps p (List.mem_cons_self ..)) with
      hlt | ⟨hg, ha⟩
    · exact ⟨le_of_lt (lt_of_le_of_lt hih.1 hlt),
        fun _ => Or.inr (lt_of_le_of_lt hih.1 hlt)⟩
    · rw [hg] at hih
      refine ⟨hih.1, fun hne => ?_⟩
      rcases hih.2 hne with h | h
      · rw [ha] at h
        exact Or.inl h
      · exact Or.inr h

theorem procRegion_inv (n W H : Nat) (st : List (List Nat) × (Nat → Option Area))
    (e : Nat × List (Nat × Nat)) (hinv : Inv n W H st)
    (he1 : 1 ≤ e.1) (he2 : e.1 ≤ n) (heq : ∀ q ∈ e.2, q.1 < W ∧ q.2 < H) :
    Inv n W H (procRegion W H st e).1 ∧
      ∀ q ∈ (procRegion W H st e).2, q.1 < W ∧ q.2 < H :=
  procRegionAux_inv n W H e.1 he1 he2 e.2 st [] hinv (by simp) heq

theorem procRegion_zero (n W H : Nat) (st : List (List Nat) × (Nat → Option Area))
    (e : Nat × List (Nat × Nat)) (hinv : Inv n W H st)
    (he1 : 1 ≤ e.1) (he2 : e.1 ≤ n) (heq : ∀ q ∈ e.2, q.1 < W ∧ q.2 < H) :
    emptyCount (procRegion W H st e).1.1 ≤ emptyCount st.1 ∧
      ((procRegion W H st e).2 ≠ [] →
        emptyCount (procRegion W H st e).1.1 < emptyCount st.1) := by
  have := procRegionAux_zero n W H e.1 he1 he2 e.2 st [] hinv (by simp) heq
  refine ⟨this.1, fun hne => ?_⟩
  rcases this.2 hne with h | h
  · exact absurd rfl h
  · exact h

theorem procRoundAux_inv (n W H : Nat) :
    ∀ (ops : List (Nat × List (Nat × Nat))) (st : List (List Nat) × (Nat → Option Area))
      (checks : List (Nat × List (Nat × Nat))),
      Inv n W H st → OpsInv n W H ops → OpsInv n W H checks →
      Inv n W H (ops.foldl (fun acc e =>
          ((procRegion W H acc.1 e).1,
            if (procRegion W H acc.1 e).2 ≠ [] then
              acc.2 ++ [(e.1, (procRegion W H acc.1 e).2)] else acc.2)) (st, checks)).1 ∧
        OpsInv n W H (ops.foldl (fun acc e =>
          ((procRegion W H acc.1 e).1,
            if (procRegion W H acc.1 e).2 ≠ [] then
              acc.2 ++ [(e.1, (procRegion W H acc.1 e).2)] else acc.2)) (st, checks)).2 := by
  intro ops
  induction ops with
  | nil => exact fun st checks hinv _ hchecks => ⟨hinv, hchecks⟩
  | cons e tl ih =>
    intro st checks hinv hops hchecks
    rw [List.foldl_cons]
    have he := hops e (List.mem_cons_self ..)
    have hr := procRegion_inv n W H st e hinv he.1.1 he.1.2 he.2
    apply ih _ _ hr.1 (fun e' he' => hops e' (List.mem_cons_of_mem _ he'))
    intro e' he'
    dsimp only at he'
    split at he'
    · rcases List.mem_append.mp he' with h | h
      · exact hchecks e' h
      · rw [List.mem_singleton.mp h]
        exact ⟨he.1, hr.2⟩
    · exact hchecks e' he'

theorem procRoundAux_zero (n W H : Nat) :
    ∀ (ops : List (Nat × List (Nat × Nat))) (st : List (List Nat) × (Nat → Option Area))
      (checks : List (Nat × List (Nat × Nat))),
      Inv n W H st → OpsInv n W H ops →
      emptyCount (ops.foldl (fun acc e =>
          ((procRegion W H acc.1 e).1,
            if (procRegion W H acc.1 e).2 ≠ [] then
              acc.2 ++ [(e.1, (procRegion W H acc.1 e).2)] else acc.2)) (st, checks)).1.1 ≤
          emptyCount st.1 ∧
        ((ops.foldl (fun acc e =>
          ((procRegion W H acc.1 e).1,
            if (procRegion W H acc.1 e).2 ≠ [] then
              acc.2 ++ [(e.1, (procRegion W H acc.1 e).2)] else acc.2)) (st, checks)).2 ≠ [] →
          checks ≠ [] ∨
            emptyCount (ops.foldl (fun acc e =>
              ((procRegion W H acc.1 e).1,
                if (procRegion W H acc.1 e).2 ≠ [] then
                  acc.2 ++ [(e.1, (procRegion W H acc.1 e).2)] else acc.2)) (st, checks)).1.1 <
              emptyCount st.1) := by
  intro ops
  induction ops with
  | nil => exact fun st checks _ _ => ⟨Nat.le_refl _, fun h2 => Or.inl h2⟩
  | cons e tl ih =>
    intro st checks hinv hops
    rw [List.foldl_cons]
    have he := hops e (List.mem_cons_self ..)
    have hr := procRegion_inv n W H st e hinv he.1.1 he.1.2 he.2
    have hz := procRegion_zero n W H st e hinv he.1.1 he.1.2 he.2
    by_cases hne : (procRegion W H st e).2 ≠ []
    · have hih := ih (procRegion W H st e).1 (checks ++ [(e.1, (procRegion W H st e).2)])
        hr.1 (fun e' he' => hops e' (List.mem_cons_of_mem _ he'))
      have hlt := hz.2 hne
      dsimp only
      rw [if_pos hne]
      exact ⟨le_of_lt (lt_of_le_of_lt hih.1 hlt),
        fun _ => Or.inr (lt_of_le_of_lt hih.1 hlt)⟩
    · have hih := ih (procRegion W H st e).1 checks
        hr.1 (fun e' he' => hops e' (List.mem_cons_of_mem _ he'))
      dsimp only
      rw [if_neg hne]
      refine ⟨le_trans hih.1 hz.1, fun h2 => ?_⟩
      rcases hih.2 h2 with h | h
      · exact Or.inl h
      · exact Or.inr (lt_of_lt_of_le h hz.1)

theorem procRound_eq (W H : Nat) (st : List (List Nat) × (Nat → Option Area))
    (ops : List (Nat × List (Nat × Nat))) :
    procRound W H st ops = ops.foldl (fun acc e =>
      ((procRegion W H acc.1 e).1,
        if (procRegion W H acc.1 e).2 ≠ [] then
          acc.2 ++ [(e.1, (procRegion W H acc.1 e).2)] else acc.2)) (st, []) := rfl

theorem procRound_inv (n W H : Nat) (st : List (List Nat) × (Nat → Option Area))
    (ops : List (Nat × List (Nat × Nat))) (hinv : Inv n W H st)
    (hops : OpsInv n W H ops) :
    Inv n W H (procRound W H st ops).1 ∧ OpsInv n W H (procRound W H st ops).2 := by
  rw [procRound_eq]
  exact procRoundAux_inv n W H ops st [] hinv hops (fun e he => by cases he)

theorem procRound_zero (n W H : Nat) (st : List (List Nat) × (Nat → Option Area))
    (ops : List (Nat × List (Nat × Nat))) (hinv : Inv n W H st)
    (hops : OpsInv n W H ops) :
    emptyCount (procRound W H st ops).1.1 ≤ emptyCount st.1 ∧
      ((procRound W H st ops).2 ≠ [] →
        emptyCount (procRound W H st ops).1.1 < emptyCount st.1) := by
  rw [procRound_eq]
  have := procRoundAux_zero n W H ops st [] hinv hops
  refine ⟨this.1, fun hne => ?_⟩
  rcases this.2 hne with h | h
  · exact absurd rfl h
  · exact h

theorem growLoop_inv (n W H : Nat) :
    ∀ (fuel : Nat) (st : List (List Nat) × (Nat → Option Area))
      (ops : List (Nat × List (Nat × Nat)))
      (st' : List (List Nat) × (Nat → Option Area)),
      Inv n W H st → OpsInv n W H ops → growLoop W H fuel st ops = some st' →
      Inv n W H st' := by
  intro fuel
  induction fuel with
  | zero =>
    intro st ops st' hinv hops hsome
    rw [growLoop] at hsome
    by_cases hops0 : ops = []
    · rw [if_pos hops0] at hsome
      obtain rfl := Option.some.inj hsome
      exact hinv
    · rw [if_neg hops0] at hsome
      cases hsome
  | succ fuel ih =>
    intro st ops st' hinv hops hsome
    rw [growLoop] at hsome
    by_cases hops0 : ops = []
    · rw [if_pos hops0] at hsome
      obtain rfl := Option.some.inj hsome
      exact hinv
    · rw [if_neg hops0] at hsome
      have hr := procRound_inv n W H st ops hinv hops
      exact ih _ _ st' hr.1 hr.2 hsome

theorem growLoop_some (n W H : Nat) :
    ∀ (fuel : Nat) (st : List (List Nat) × (Nat → Option Area))
      (ops : List (Nat × List (Nat × Nat))),
      Inv n W H st → OpsInv n W H ops → emptyCount st.1 < fuel ∨ ops = [] →
      (growLoop W H fuel st ops).isSome = true := by
  intro fuel
  induction fuel with
  | zero =>
    intro st ops hinv hops hcond
    rcases hcond with h | h
    · exact absurd h (by omega)
    · rw [growLoop, if_pos h]
      rfl
  | succ fuel ih =>
    intro st ops hinv hops hcond
    rw [growLoop]
    by_cases hops0 : ops = []
    · rw [if_pos hops0]
      rfl
    · rw [if_neg hops0]
      have hfuel : emptyCount st.1 < fuel + 1 := by tauto
      have hr := procRound_inv n W H st ops hinv hops
      have hz := procRound_zero n W H st ops hinv hops
      by_cases hne : (procRound W H st ops).2 = []
      · exact ih _ _ hr.1 hr.2 (Or.inr hne)
      · exact ih _ _ hr.1 hr.2 (Or.inl (by have := hz.2 hne; omega))

theorem get2_replicate_zero (W H y x : Nat) :
    get2 (List.replicate H (List.replicate W (0 : Nat))) y x = 0 := by
  unfold get2
  by_cases hy : y < H
  · rw [getD_of_lt _ y (by simpa using hy), List.getElem_replicate]
    by_cases hx : x < W
    · rw [List.getD_eq_getElem?_getD, List.getElem?_replicate, if_pos hx]
      rfl
    · rw [List.getD_eq_getElem?_getD, List.getElem?_replicate, if_neg hx]
      rfl
  · rw [getD_of_le _ y (by simpa using Nat.le_of_not_lt hy)]
    rfl

theorem replicate_wf (W H : Nat) :
    (List.replicate H (List.replicate W (0 : Nat))).length = H ∧
      ∀ y, y < H →
        ((List.replicate H (List.replicate W (0 : Nat))).getD y []).length = W := by
  refine ⟨List.length_replicate .., fun y hy => ?_⟩
  rw [List.getD_eq_getElem?_getD, List.getElem?_replicate, if_pos hy]
  simp

theorem length_drawSeeds (tape : Nat → Nat) (n W H : Nat) :
    (drawSeeds tape n W H).length = n := by
  simp [drawSeeds]

theorem init_inv (tape : Nat → Nat) (n W H : Nat) :
    Inv n W H (List.replicate H (List.replicate W 0),
      initAreas (drawSeeds tape n W H)) := by
  refine ⟨replicate_wf W H, fun y x => by rw [get2_replicate_zero]; omega, ?_, ?_, ?_⟩
  · intro id h1 h2
    show (initAreas (drawSeeds tape n W H) id).isSome = true
    unfold initAreas
    rw [if_pos h1, List.getElem?_eq_getElem (by rw [length_drawSeeds]; omega)]
    rfl
  · intro id h
    show initAreas (drawSeeds tape n W H) id = none
    unfold initAreas
    by_cases h1 : 1 ≤ id
    · rw [if_pos h1, List.getElem?_eq_none (by rw [length_drawSeeds]; omega)]
      rfl
    · rw [if_neg h1]
  · intro id a heq
    have heq2 : initAreas (drawSeeds tape n W H) id = some a := heq
    simp only [initAreas] at heq2
    by_cases h1 : 1 ≤ id
    · rw [if_pos h1] at heq2
      rcases Option.map_eq_some'.mp heq2 with ⟨p, hp, hpf⟩
      refine ⟨by rw [← hpf], fun q => ?_⟩
      constructor
      · intro hq
        rw [← hpf] at hq
        simp at hq
      · intro hg
        have hg2 : get2 (List.replicate H (List.replicate W 0)) q.1 q.2 = id := hg
        rw [get2_replicate_zero] at hg2
        omega
    · rw [if_neg h1] at heq2
      cases heq2

theorem initOps_opsInv (tape : Nat → Nat) (n W H : Nat) (hW : 1 ≤ W) (hH : 1 ≤ H) :
    OpsInv n W H (initOps (drawSeeds tape n W H)) := by
  intro e he
  unfold initOps at he
  rw [length_drawSeeds] at he
  rcases List.mem_map.mp he with ⟨i, hi, hei⟩
  rw [List.mem_range] at hi
  rw [← hei]
  refine ⟨⟨by omega, by omega⟩, fun q hq => ?_⟩
  rw [List.mem_singleton.mp hq]
  unfold drawSeeds
  rw [List.getD_eq_getElem?_getD, List.getElem?_map, List.getElem?_range hi]
  simp only [Option.map_some', Option.getD_some]
  refine ⟨?_, ?_⟩
  · show 0 + tape (2 * i) % (W - 1 + 1 - 0) < W
    have hw : W - 1 + 1 - 0 = W := by omega
    rw [hw, Nat.zero_add]
    exact Nat.mod_lt _ (by omega)
  · show 0 + tape (2 * i + 1) % (H - 1 + 1 - 0) < H
    have hh : H - 1 + 1 - 0 = H := by omega
    rw [hh, Nat.zero_add]
    exact Nat.mod_lt _ (by omega)

theorem opsInv_init (tape : Nat → Nat) (n W H : Nat)
    (h : ¬(1 ≤ n ∧ (W = 0 ∨ H = 0))) :
    OpsInv n W H (initOps (drawSeeds tape n W H)) := by
  by_cases hn : n = 0
  · subst hn
    intro e he
    simp [initOps, drawSeeds] at he
  · exact initOps_opsInv tape n W H (by omega) (by omega)

theorem voronoi_some_inv (tape : Nat → Nat) (n W H : Nat) (st : VState)
    (h : voronoi tape n W H = some st) :
    st.map_size = (W, H) ∧ Inv n W H (st.map_data, st.areas) := by
  unfold voronoi at h
  by_cases hguard : 1 ≤ n ∧ (W = 0 ∨ H = 0)
  · rw [if_pos hguard] at h
    cases h
  · rw [if_neg hguard] at h
    rcases Option.map_eq_some'.mp h with ⟨a, ha, haf⟩
    have hinv := growLoop_inv n W H _ _ _ a (init_inv tape n W H)
      (opsInv_init tape n W H hguard) ha
    rw [← haf]
    exact ⟨rfl, hinv⟩

theorem length_cellsOf_replicate (W H : Nat) :
    (cellsOf (List.replicate H (List.replicate W (0 : Nat)))).length = H * W := by
  unfold cellsOf
  rw [(replicate_wf W H).1]
  rw [List.flatMap_congr (fun y hy => by
    rw [(replicate_wf W H).2 y (List.mem_range.mp hy)])]
  rw [List.length_flatMap]
  simp only [Function.comp_def, List.length_map, List.length_range]
  rw [List.map_const', List.sum_replicate, List.length_range, smul_eq_mul]

theorem emptyCount_init_lt (W H : Nat) :
    emptyCount (List.replicate H (List.replicate W (0 : Nat))) < W * H + 2 := by
  have h1 : emptyCount (List.replicate H (List.replicate W (0 : Nat))) ≤
      (cellsOf (List.replicate H (List.replicate W (0 : Nat)))).length :=
    List.length_filter_le _ _
  rw [length_cellsOf_replicate] at h1
  have h2 : H * W = W * H := Nat.mul_comm H W
  omega

/-- The growth loop of every constructible configuration finishes within its
fuel: `voronoi` returns a state whenever the dimensions are positive (or there
are no seeds at all). -/
theorem voronoi_total (tape : Nat → Nat) (n W H : Nat)
    (h : n = 0 ∨ (1 ≤ W ∧ 1 ≤ H)) : (voronoi tape n W H).isSome = true := by
  unfold voronoi
  have hguard : ¬(1 ≤ n ∧ (W = 0 ∨ H = 0)) := by omega
  rw [if_neg hguard]
  rw [Option.isSome_map']
  exact growLoop_some n W H _ _ _ (init_inv tape n W H)
    (opsInv_init tape n W H hguard) (Or.inl (emptyCount_init_lt W H))

/-- With `num_seeds = 0` the construction silently succeeds: the grid stays
all-zero and the registry is empty. -/
theorem voronoi_zero_seeds (tape : Nat → Nat) (W H : Nat) :
    ∃ st, voronoi tape 0 W H = some st ∧ (∀ y x, get2 st.map_data y x = 0) ∧
      ∀ id, st.areas id = none := by
  refine ⟨⟨(W, H), List.replicate H (List.replicate W 0),
    initAreas (drawSeeds tape 0 W H)⟩, rfl, fun y x => get2_replicate_zero W H y x, ?_⟩
  intro id
  show initAreas (drawSeeds tape 0 W H) id = none
  simp only [initAreas]
  by_cases h1 : 1 ≤ id
  · rw [if_pos h1, List.getElem?_eq_none (by rw [length_drawSeeds]; omega)]
    rfl
  · rw [if_neg h1]

end Voronoi

end Mapgen

/-! ## The claims -/

open Mapgen

/-- Claim C1: for every fixed seed tape and configuration, repeated
construction of any of the three generators yields bit-identical grids,
region registries, and results for every query (the constructors consume
nothing but the seeded stream and their arguments). -/
theorem determinism_of_construction
    (f : List (Nat × Nat × Int) → Nat × Nat → ℚ) (t1 t2 : Nat → Nat) (h : t1 = t2)
    (W1 H1 npos nneg : Nat) (mult : ℚ) (fuel W2 H2 : Nat) (alw : ℚ) (ms : Int)
    (n W3 H3 : Nat) :
    ChargeGen.chargeGen f t1 W1 H1 npos nneg mult =
        ChargeGen.chargeGen f t2 W1 H1 npos nneg mult ∧
      DrunkWalk.drunkWalk t1 fuel W2 H2 alw ms =
        DrunkWalk.drunkWalk t2 fuel W2 H2 alw ms ∧
      Voronoi.voronoi t1 n W3 H3 = Voronoi.voronoi t2 n W3 H3 ∧
      (∀ x y : Int,
        (DrunkWalk.drunkWalk t1 fuel W2 H2 alw ms).map (fun g => DrunkWalk.getPos g x y) =
          (DrunkWalk.drunkWalk t2 fuel W2 H2 alw ms).map (fun g => DrunkWalk.getPos g x y)) ∧
      (∀ p : Int × Int,
        (Voronoi.voronoi t1 n W3 H3).map (fun st => Voronoi.getAreaFromPosition st p) =
          (Voronoi.voronoi t2 n W3 H3).map (fun st => Voronoi.getAreaFromPosition st p)) ∧
      (∀ id : Nat,
        (Voronoi.voronoi t1 n W3 H3).map (fun st => Voronoi.getPositionsFromArea st id) =
          (Voronoi.voronoi t2 n W3 H3).map (fun st => Voronoi.getPositionsFromArea st id)) := by
  subst h
  exact ⟨rfl, rfl, rfl, fun _ _ => rfl, fun _ => rfl, fun _ => rfl⟩

theorem determinism_of_construction_witness :
    ChargeGen.chargeGen (fun _ _ => (1 : ℚ)) (fun k => k) 2 2 1 0 1 =
        ChargeGen.chargeGen (fun _ _ => (1 : ℚ)) (fun k => k) 2 2 1 0 1 ∧
      DrunkWalk.drunkWalk (fun k => k) 3 2 2 0 (-1) =
        DrunkWalk.drunkWalk (fun k => k) 3 2 2 0 (-1) ∧
      Voronoi.voronoi (fun k => k) 2 2 2 = Voronoi.voronoi (fun k => k) 2 2 2 ∧
      (∀ x y : Int,
        (DrunkWalk.drunkWalk (fun k => k) 3 2 2 0 (-1)).map
            (fun g => DrunkWalk.getPos g x y) =
          (DrunkWalk.drunkWalk (fun k => k) 3 2 2 0 (-1)).map
            (fun g => DrunkWalk.getPos g x y)) ∧
      (∀ p : Int × Int,
        (Voronoi.voronoi (fun k => k) 2 2 2).map
            (fun st => Voronoi.getAreaFromPosition st p) =
          (Voronoi.voronoi (fun k => k) 2 2 2).map
            (fun st => Voronoi.getAreaFromPosition st p)) ∧
      (∀ id : Nat,
        (Voronoi.voronoi (fun k => k) 2 2 2).map
            (fun st => Voronoi.getPositionsFromArea st id) =
          (Voronoi.voronoi (fun k => k) 2 2 2).map
            (fun st => Voronoi.getPositionsFromArea st id)) :=
  determinism_of_construction (fun _ _ => (1 : ℚ)) (fun k => k) (fun k => k) rfl
    2 2 1 0 1 3 2 2 0 (-1) 2 2 2

/-- Claim C2: after construction of the region-growth generator with
`num_seeds ≥ 1` over a `W × H` grid, every cell's id is 0 or a valid id in
`1..num_seeds`; the member lists are sound (every entry is a cell claimed by
that region), complete (every claimed cell is in its owner's list), and no
position is duplicated across regions. -/
theorem region_coverage_disjointness (tape : Nat → Nat) (n W H : Nat)
    (st : Voronoi.VState) (_hn : 1 ≤ n) (h : Voronoi.voronoi tape n W H = some st) :
    (∀ y x, get2 st.map_data y x ≤ n) ∧
      (∀ id a, st.areas id = some a → ∀ q ∈ a.positions,
        get2 st.map_data q.1 q.2 = id) ∧
      (∀ y x, y < H → x < W → get2 st.map_data y x ≠ 0 →
        1 ≤ get2 st.map_data y x ∧ get2 st.map_data y x ≤ n ∧
          ∃ a, st.areas (get2 st.map_data y x) = some a ∧ (y, x) ∈ a.positions) ∧
      (∀ id id' a a' q, st.areas id = some a → st.areas id' = some a' →
        q ∈ a.positions → q ∈ a'.positions → id = id') := by
  obtain ⟨hsize, hwf, hvals, hsome, hnone, hcontent⟩ :=
    Voronoi.voronoi_some_inv tape n W H st h
  refine ⟨hvals, ?_, ?_, ?_⟩
  · intro id a ha q hq
    exact ((hcontent id a ha).2 q).mp hq
  · intro y x _ _ hne
    have hv := hvals y x
    have h1 : 1 ≤ get2 st.map_data y x := by omega
    refine ⟨h1, hv, ?_⟩
    rcases Option.isSome_iff_exists.mp (hsome _ h1 hv) with ⟨a, ha⟩
    exact ⟨a, ha, ((hcontent _ a ha).2 (y, x)).mpr rfl⟩
  · intro id id' a a' q ha ha' hq hq'
    have h1 := ((hcontent id a ha).2 q).mp hq
    have h2 := ((hcontent id' a' ha').2 q).mp hq'
    rw [h1] at h2
    exact h2

theorem region_coverage_disjointness_witness :
    ∃ st, Voronoi.voronoi (fun k => k / 2) 2 2 2 = some st ∧
      ((∀ y x, get2 st.map_data y x ≤ 2) ∧
        (∀ id a, st.areas id = some a → ∀ q ∈ a.positions,
          get2 st.map_data q.1 q.2 = id) ∧
        (∀ y x, y < 2 → x < 2 → get2 st.map_data y x ≠ 0 →
          1 ≤ get2 st.map_data y x ∧ get2 st.map_data y x ≤ 2 ∧
            ∃ a, st.areas (get2 st.map_data y x) = some a ∧ (y, x) ∈ a.positions) ∧
        (∀ id id' a a' q, st.areas id = some a → st.areas id' = some a' →
          q ∈ a.positions → q ∈ a'.positions → id = id')) := by
  cases hst : Voronoi.voronoi (fun k => k / 2) 2 2 2 with
  | none =>
      have := Voronoi.voronoi_total (fun k => k / 2) 2 2 2 (Or.inr ⟨by decide, by decide⟩)
      rw [hst] at this
      cases this
  | some st =>
      exact ⟨st, rfl,
        region_coverage_disjointness (fun k => k / 2) 2 2 2 st (by decide) hst⟩

/-- Claim C3: after the wall pass on a grid without WALL cells (as produced
by floor carving), an in-range cell is WALL if and only if it was EMPTY
before the pass and at least one of its 8 neighbours (out-of-bounds treated
as non-FLOOR) was FLOOR; FLOOR cells are never modified by the pass. -/
theorem wall_derivation_iff (g : List (List Nat))
    (hnw : ∀ y, y < g.length → ∀ x, x < (g.getD y []).length → get2 g y x ≠ 2)
    (y x : Nat) (hy : y < g.length) (hx : x < (g.getD y []).length) :
    (get2 (DrunkWalk.generateWalls g) y x = 2 ↔
      (get2 g y x = 0 ∧ ∃ p ∈ DrunkWalk.neigh8 (x : Int) (y : Int),
        DrunkWalk.getPosInner g p.1 p.2 = true)) ∧
    (get2 g y x = 1 → get2 (DrunkWalk.generateWalls g) y x = 1) := by
  constructor
  · rw [DrunkWalk.get2_generateWalls g y x hy hx]
    constructor
    · intro h2
      by_cases hcond : get2 g y x = 0 ∧ DrunkWalk.wallCond g (x : Int) (y : Int) = true
      · exact ⟨hcond.1, (DrunkWalk.wallCond_iff_exists g x y).mp hcond.2⟩
      · rw [if_neg hcond] at h2
        exact absurd h2 (hnw y hy x hx)
    · intro hcond
      rw [if_pos ⟨hcond.1, (DrunkWalk.wallCond_iff_exists g x y).mpr hcond.2⟩]
  · intro h1
    exact (DrunkWalk.floor_generateWalls g y x).mpr h1

theorem wall_derivation_iff_witness :
    (get2 (DrunkWalk.generateWalls [[1, 0], [0, 0]]) 0 1 = 2 ↔
      (get2 [[1, 0], [0, 0]] 0 1 = 0 ∧ ∃ p ∈ DrunkWalk.neigh8 (1 : Int) (0 : Int),
        DrunkWalk.getPosInner [[1, 0], [0, 0]] p.1 p.2 = true)) ∧
    (get2 [[1, 0], [0, 0]] 0 1 = 1 →
      get2 (DrunkWalk.generateWalls [[1, 0], [0, 0]]) 0 1 = 1) :=
  wall_derivation_iff [[1, 0], [0, 0]] (by decide) 0 1 (by decide) (by decide)

/-- Claim C4: in the charge-field generator the final stored value is 0
whenever the raw summed total is strictly below the cutoff and is the
unmodified raw total otherwise; and the mean of the raw totals equals
`cutoff / cutoff_multiplier` (exactly, in the rational model) whenever
`cutoff_multiplier ≠ 0`. -/
theorem chargefield_cutoff_invariant
    (f : List (Nat × Nat × Int) → Nat × Nat → ℚ) (tape : Nat → Nat)
    (W H npos nneg : Nat) (mult : ℚ) (st : ChargeGen.State)
    (h : ChargeGen.chargeGen f tape W H npos nneg mult = some st)
    (y x : Nat) (hy : y < H) (hx : x < W) :
    (get2 (ChargeGen.rawMap f st.charges W H) y x < st.cutoff →
        get2 st.charge_map y x = 0) ∧
      (¬ get2 (ChargeGen.rawMap f st.charges W H) y x < st.cutoff →
        get2 st.charge_map y x = get2 (ChargeGen.rawMap f st.charges W H) y x) ∧
      (mult ≠ 0 →
        ChargeGen.sumCells (ChargeGen.rawMap f st.charges W H) W H / ((W * H : Nat) : ℚ) =
          st.cutoff / mult) := by
  obtain ⟨h1, h2, hst⟩ := ChargeGen.chargeGen_some f tape W H npos nneg mult st h
  subst hst
  dsimp only
  have hin : ∀ c ∈ ChargeGen.cellList W H,
      c.1 < (ChargeGen.rawMap f (ChargeGen.drawCharges tape W H npos nneg) W H).length ∧
      c.2 < ((ChargeGen.rawMap f (ChargeGen.drawCharges tape W H npos nneg) W H).getD
        c.1 []).length := by
    intro c hc
    obtain ⟨c1, c2⟩ := c
    have hm := (ChargeGen.mem_cellList W H c1 c2).mp hc
    rw [ChargeGen.length_rawMap, ChargeGen.rowLen_rawMap f _ W H c1 hm.1]
    exact hm
  have hchar := ChargeGen.get2_applyCutoff
    (ChargeGen.sumCells (ChargeGen.rawMap f (ChargeGen.drawCharges tape W H npos nneg) W H)
        W H / ((W * H : Nat) : ℚ) * mult)
    (ChargeGen.cellList W H)
    (ChargeGen.rawMap f (ChargeGen.drawCharges tape W H npos nneg) W H)
    (ChargeGen.nodup_cellList W H) hin y x
  rw [hchar]
  have hmem := (ChargeGen.mem_cellList W H y x).mpr ⟨hy, hx⟩
  refine ⟨?_, ?_, ?_⟩
  · intro hlt
    rw [if_pos ⟨hmem, hlt⟩]
  · intro hge
    rw [if_neg (fun hh => hge hh.2)]
  · intro hm
    rw [mul_div_assoc, div_self hm, mul_one]

theorem chargefield_cutoff_invariant_witness :
    ∃ st, ChargeGen.chargeGen (fun _ _ => (1 : ℚ)) (fun _ => 0) 2 2 1 0 2 = some st ∧
      ((get2 (ChargeGen.rawMap (fun _ _ => (1 : ℚ)) st.charges 2 2) 0 0 < st.cutoff →
          get2 st.charge_map 0 0 = 0) ∧
        (¬ get2 (ChargeGen.rawMap (fun _ _ => (1 : ℚ)) st.charges 2 2) 0 0 < st.cutoff →
          get2 st.charge_map 0 0 =
            get2 (ChargeGen.rawMap (fun _ _ => (1 : ℚ)) st.charges 2 2) 0 0) ∧
        ((2 : ℚ) ≠ 0 →
          ChargeGen.sumCells (ChargeGen.rawMap (fun _ _ => (1 : ℚ)) st.charges 2 2) 2 2 /
              ((2 * 2 : Nat) : ℚ) = st.cutoff / 2)) := by
  cases hst : ChargeGen.chargeGen (fun _ _ => (1 : ℚ)) (fun _ => 0) 2 2 1 0 2 with
  | none => exact absurd hst (by decide)
  | some st =>
      exact ⟨st, rfl, chargefield_cutoff_invariant (fun _ _ => (1 : ℚ)) (fun _ => 0)
        2 2 1 0 2 st hst 0 0 (by decide) (by decide)⟩

/-- Claim C5, counterexample: with Python's `randint(0, W)` both endpoints
are inclusive, so a draw can land at `x = width` itself — refuting
"every drawn x satisfies 0 <= x < width". -/
theorem charge_draws_cex :
    ¬ ∀ st, ChargeGen.chargeGen (fun _ _ => (0 : ℚ)) (fun _ => 2) 2 2 1 0 1 = some st →
      ∀ c ∈ st.charges, c.1 < 2 := by
  intro hall
  cases hst : ChargeGen.chargeGen (fun _ _ => (0 : ℚ)) (fun _ => 2) 2 2 1 0 1 with
  | none => exact absurd hst (by decide)
  | some st =>
      obtain ⟨_, _, hst2⟩ := ChargeGen.chargeGen_some _ _ 2 2 1 0 1 st hst
      have hc : ((2 : Nat), (2 : Nat), (1 : Int)) ∈ st.charges := by
        rw [hst2]
        decide
      exact absurd (hall st hst (2, 2, 1) hc) (by decide)

/-- Claim C5 (amended): exactly `num_positive + num_negative` coordinate
pairs are drawn, each over the inclusive ranges `[0, width] × [0, height]`
(Python's `randint` includes both endpoints), with the first `num_positive`
draws of polarity +1 and the remainder −1, positives drawn before
negatives. -/
theorem charge_draws_amended
    (f : List (Nat × Nat × Int) → Nat × Nat → ℚ) (tape : Nat → Nat)
    (W H npos nneg : Nat) (mult : ℚ) (st : ChargeGen.State)
    (h : ChargeGen.chargeGen f tape W H npos nneg mult = some st) :
    st.charges.length = npos + nneg ∧
      ∀ i (hi : i < st.charges.length),
        (st.charges.get ⟨i, hi⟩).1 ≤ W ∧ (st.charges.get ⟨i, hi⟩).2.1 ≤ H ∧
          (st.charges.get ⟨i, hi⟩).2.2 = (if i < npos then 1 else -1) := by
  obtain ⟨_, _, hst⟩ := ChargeGen.chargeGen_some f tape W H npos nneg mult st h
  subst hst
  exact ChargeGen.get_drawCharges tape W H npos nneg

theorem charge_draws_amended_witness :
    ∃ st, ChargeGen.chargeGen (fun _ _ => (0 : ℚ)) (fun _ => 2) 2 2 1 0 1 = some st ∧
      (st.charges.length = 1 + 0 ∧
        ∀ i (hi : i < st.charges.length),
          (st.charges.get ⟨i, hi⟩).1 ≤ 2 ∧ (st.charges.get ⟨i, hi⟩).2.1 ≤ 2 ∧
            (st.charges.get ⟨i, hi⟩).2.2 = (if i < 1 then 1 else -1)) := by
  cases hst : ChargeGen.chargeGen (fun _ _ => (0 : ℚ)) (fun _ => 2) 2 2 1 0 1 with
  | none => exact absurd hst (by decide)
  | some st =>
      exact ⟨st, rfl, charge_draws_amended (fun _ _ => (0 : ℚ)) (fun _ => 2)
        2 2 1 0 1 st hst⟩

/-- Claim C6, counterexample: constructing the region-growth generator with
`num_seeds = 0` does NOT fail — it silently completes (and, per the amended
theorem, returns an all-zero grid with an empty registry). -/
theorem invalid_configuration_cex :
    ¬ Voronoi.voronoi (fun _ => 0) 0 4 4 = none := by
  have h := Voronoi.voronoi_total (fun _ => 0) 0 4 4 (Or.inl rfl)
  intro hnone
  rw [hnone] at h
  cases h

/-- Claim C6 (amended): constructing the charge-field generator with
`num_positive + num_negative = 0` fails synchronously at construction (an
unhandled `ZeroDivisionError` from the charge-strength computation, before
any grid is built); constructing the region-growth generator with
`num_seeds < 1` does not fail at all: it silently completes with an all-zero
grid and an empty region registry. -/
theorem invalid_configuration_amended :
    (∀ (f : List (Nat × Nat × Int) → Nat × Nat → ℚ) (tape : Nat → Nat)
      (W H : Nat) (mult : ℚ), ChargeGen.chargeGen f tape W H 0 0 mult = none) ∧
    (∀ (tape : Nat → Nat) (W H : Nat), ∃ st, Voronoi.voronoi tape 0 W H = some st ∧
      (∀ y x, get2 st.map_data y x = 0) ∧ ∀ id, st.areas id = none) :=
  ⟨fun f tape W H mult => ChargeGen.chargeGen_zero_charges f tape W H mult,
    fun tape W H => Voronoi.voronoi_zero_seeds tape W H⟩

/-- Claim C7, counterexample: the carve loop with unlimited steps does not
terminate for every configuration — with `intersection_allowance = 1.0`
(the module's `FULL_INTERSECTION`) on a 2×1 grid every in-bounds candidate
is accepted (a `random()` roll in `[0,1)` never exceeds 1), so `can_walk`
stays true forever. -/
theorem carve_unbounded_cex :
    ¬ DrunkWalk.carveTerminates (fun _ => 0) 1 (DrunkWalk.initState 2 1 (-1)) := by
  intro hterm
  obtain ⟨k, hk⟩ := hterm
  have hbase : DrunkWalk.WalkInB (DrunkWalk.initState 2 1 (-1)) := ⟨by decide, by decide⟩
  have hlive : ∀ j,
      (DrunkWalk.floorIter (fun _ => 0) 1 j (DrunkWalk.initState 2 1 (-1))).canWalk = true ∧
      (DrunkWalk.floorIter (fun _ => 0) 1 j (DrunkWalk.initState 2 1 (-1))).maxSteps = -1 := by
    intro j
    induction j with
    | zero => exact ⟨rfl, rfl⟩
    | succ j ih =>
        rw [DrunkWalk.floorIter_succ]
        have hsh := DrunkWalk.floorIter_shape (fun _ => 0) 1 j (DrunkWalk.initState 2 1 (-1))
        have hinb := DrunkWalk.floorIter_inb (fun _ => 0) 1 j (DrunkWalk.initState 2 1 (-1)) hbase
        apply DrunkWalk.floorStep_alw1_live (fun _ => 0) _ ih.2 ih.1 hinb
        have hy0 : (DrunkWalk.floorIter (fun _ => 0) 1 j (DrunkWalk.initState 2 1 (-1))).posY = 0 := by
          have h1 := hinb.1
          rw [hsh.1] at h1
          have h2 : (DrunkWalk.initState 2 1 (-1)).grid.length = 1 := rfl
          omega
        rw [hy0, hsh.2 0]
        decide
  exact absurd hk (by simp [DrunkWalk.guardB, (hlive k).1, (hlive k).2])

/-- Claim C7 (amended): the charge-field and region-growth constructions
complete for every configuration they accept; in the carve loop a finite
`max_steps` is decremented once per attempt, successful or not, and the loop
is dead after at most `max_steps` iterations; with unlimited steps the loop
always terminates when `intersection_allowance = 0` — but, per the
counterexample, not for every allowance. -/
theorem generator_termination_amended :
    (∀ (f : List (Nat × Nat × Int) → Nat × Nat → ℚ) (tape : Nat → Nat)
      (W H npos nneg : Nat) (mult : ℚ), npos + nneg ≠ 0 → W * H ≠ 0 →
        (ChargeGen.chargeGen f tape W H npos nneg mult).isSome = true) ∧
    (∀ (tape : Nat → Nat) (n W H : Nat), n = 0 ∨ (1 ≤ W ∧ 1 ≤ H) →
      (Voronoi.voronoi tape n W H).isSome = true) ∧
    (∀ (tape : Nat → Nat) (alw : ℚ) (s : DrunkWalk.WalkState),
      DrunkWalk.guardB s = true → s.maxSteps ≠ -1 →
        (DrunkWalk.floorStep tape alw s).maxSteps = s.maxSteps - 1) ∧
    (∀ (tape : Nat → Nat) (alw : ℚ) (W H : Nat) (m : Int), 0 ≤ m →
      DrunkWalk.guardB
        (DrunkWalk.floorIter tape alw m.toNat (DrunkWalk.initState W H m)) = false) ∧
    (∀ (tape : Nat → Nat) (W H : Nat) (ms : Int), ∃ k,
      DrunkWalk.guardB
        (DrunkWalk.floorIter tape 0 k (DrunkWalk.initState W H ms)) = false) := by
  refine ⟨ChargeGen.chargeGen_total, Voronoi.voronoi_total, ?_, ?_, ?_⟩
  · intro tape alw s hg hms
    rw [DrunkWalk.floorStep_ms tape alw s hg, if_neg hms]
  · intro tape alw W H m hm
    apply DrunkWalk.guard_dead_of_budget tape alw m.toNat (DrunkWalk.initState W H m) hm
    show m ≤ (m.toNat : Int)
    omega
  · intro tape W H ms
    exact DrunkWalk.guard_dead_alw0 tape
      (emptyCount (DrunkWalk.initState W H ms).grid) (DrunkWalk.initState W H ms)
      (Nat.le_refl _)

theorem generator_termination_witness :
    (ChargeGen.chargeGen (fun _ _ => (1 : ℚ)) (fun _ => 0) 2 2 1 0 1).isSome = true ∧
    (Voronoi.voronoi (fun _ => 0) 2 2 2).isSome = true ∧
    (DrunkWalk.floorStep (fun _ => 0) 0 (DrunkWalk.initState 2 2 5)).maxSteps =
      (DrunkWalk.initState 2 2 5).maxSteps - 1 ∧
    DrunkWalk.guardB
      (DrunkWalk.floorIter (fun _ => 0) 0 ((3 : Int)).toNat (DrunkWalk.initState 2 2 3)) =
        false ∧
    ∃ k, DrunkWalk.guardB
      (DrunkWalk.floorIter (fun _ => 0) 0 k (DrunkWalk.initState 2 2 (-1))) = false := by
  obtain ⟨h1, h2, h3, h4, h5⟩ := generator_termination_amended
  exact ⟨h1 (fun _ _ => (1 : ℚ)) (fun _ => 0) 2 2 1 0 1 (by decide) (by decide),
    h2 (fun _ => 0) 2 2 2 (Or.inr ⟨by decide, by decide⟩),
    h3 (fun _ => 0) 0 (DrunkWalk.initState 2 2 5) (by decide) (by decide),
    h4 (fun _ => 0) 0 2 2 3 (by decide),
    h5 (fun _ => 0) 2 2 (-1)⟩

/-- Claim C8: throughout `carve_floor` the cursor stays inside
`[0, W) × [0, H)`, and a FLOOR cell, once set, is never reverted by later
carve iterations nor by the wall-derivation pass. -/
theorem randomwalk_containment (tape : Nat → Nat) (alw : ℚ) (ms : Int) (W H : Nat)
    (hW : 1 ≤ W) (hH : 1 ≤ H) (n m : Nat) (hnm : n ≤ m) :
    ((DrunkWalk.floorIter tape alw n (DrunkWalk.initState W H ms)).posX < W ∧
      (DrunkWalk.floorIter tape alw n (DrunkWalk.initState W H ms)).posY < H) ∧
    ∀ y x, get2 (DrunkWalk.floorIter tape alw n (DrunkWalk.initState W H ms)).grid y x = 1 →
      get2 (DrunkWalk.floorIter tape alw m (DrunkWalk.initState W H ms)).grid y x = 1 ∧
      get2 (DrunkWalk.generateWalls
        (DrunkWalk.floorIter tape alw m (DrunkWalk.initState W H ms)).grid) y x = 1 := by
  have hlen0 : (DrunkWalk.initState W H ms).grid.length = H := List.length_replicate ..
  have hinb0 : DrunkWalk.WalkInB (DrunkWalk.initState W H ms) := by
    constructor
    · rw [hlen0]
      exact Nat.div_lt_self (by omega) (by omega)
    · show W / 2 < (((DrunkWalk.initState W H ms).grid).getD (H / 2) []).length
      rw [show ((DrunkWalk.initState W H ms).grid).getD (H / 2) [] =
          (List.replicate H (List.replicate W 0)).getD (H / 2) [] from rfl,
        (Voronoi.replicate_wf W H).2 (H / 2) (Nat.div_lt_self (by omega) (by omega))]
      exact Nat.div_lt_self (by omega) (by omega)
  have hinb := DrunkWalk.floorIter_inb tape alw n (DrunkWalk.initState W H ms) hinb0
  have hsh := DrunkWalk.floorIter_shape tape alw n (DrunkWalk.initState W H ms)
  have hY : (DrunkWalk.floorIter tape alw n (DrunkWalk.initState W H ms)).posY < H := by
    have h1 := hinb.1
    rw [hsh.1, hlen0] at h1
    exact h1
  constructor
  · refine ⟨?_, hY⟩
    have h2 := hinb.2
    rw [hsh.2] at h2
    rw [show ((DrunkWalk.initState W H ms).grid).getD
        (DrunkWalk.floorIter tape alw n (DrunkWalk.initState W H ms)).posY [] =
        (List.replicate H (List.replicate W 0)).getD
          (DrunkWalk.floorIter tape alw n (DrunkWalk.initState W H ms)).posY [] from rfl,
      (Voronoi.replicate_wf W H).2 _ hY] at h2
    exact h2
  · intro y x h1
    have hiter : DrunkWalk.floorIter tape alw m (DrunkWalk.initState W H ms) =
        DrunkWalk.floorIter tape alw (m - n)
          (DrunkWalk.floorIter tape alw n (DrunkWalk.initState W H ms)) := by
      rw [← DrunkWalk.floorIter_add]
      congr 1
      omega
    have h2 := DrunkWalk.floorIter_floor_mono tape alw (m - n)
      (DrunkWalk.floorIter tape alw n (DrunkWalk.initState W H ms)) y x h1
    rw [← hiter] at h2
    exact ⟨h2, (DrunkWalk.floor_generateWalls _ y x).mpr h2⟩

theorem randomwalk_containment_witness :
    ((DrunkWalk.floorIter (fun _ => 0) 0 0 (DrunkWalk.initState 2 2 (-1))).posX < 2 ∧
      (DrunkWalk.floorIter (fun _ => 0) 0 0 (DrunkWalk.initState 2 2 (-1))).posY < 2) ∧
    ∀ y x,
      get2 (DrunkWalk.floorIter (fun _ => 0) 0 0 (DrunkWalk.initState 2 2 (-1))).grid y x = 1 →
        get2 (DrunkWalk.floorIter (fun _ => 0) 0 1 (DrunkWalk.initState 2 2 (-1))).grid y x
            = 1 ∧
        get2 (DrunkWalk.generateWalls
          (DrunkWalk.floorIter (fun _ => 0) 0 1 (DrunkWalk.initState 2 2 (-1))).grid) y x
            = 1 :=
  randomwalk_containment (fun _ => 0) 0 (-1) 2 2 (by decide) (by decide) 0 1 (by decide)

/-- Claim C9: if no carving happens in between, a second wall-derivation pass
is a no-op — `generate_walls` applied twice gives the same grid as applying
it once. -/
theorem mark_walls_idempotent (g : List (List Nat)) :
    DrunkWalk.generateWalls (DrunkWalk.generateWalls g) = DrunkWalk.generateWalls g := by
  have hsh1 := DrunkWalk.shape_generateWalls g
  have hsh2 := DrunkWalk.shape_generateWalls (DrunkWalk.generateWalls g)
  apply grid_ext _ _ hsh2.1 (fun y _ => hsh2.2 y)
  intro y x hy hx
  have hy1 : y < (DrunkWalk.generateWalls g).length := by rw [← hsh2.1]; exact hy
  have hx1 : x < ((DrunkWalk.generateWalls g).getD y []).length := by
    rw [← hsh2.2 y]; exact hx
  have hy0 : y < g.length := by rw [← hsh1.1]; exact hy1
  have hx0 : x < (g.getD y []).length := by rw [← hsh1.2 y]; exact hx1
  rw [DrunkWalk.get2_generateWalls (DrunkWalk.generateWalls g) y x hy1 hx1]
  have hwc := DrunkWalk.wallCond_congr g (DrunkWalk.generateWalls g) hsh1.1 hsh1.2
    (DrunkWalk.floor_generateWalls g) (x : Int) (y : Int)
  by_cases h0 : get2 (DrunkWalk.generateWalls g) y x = 0
  · have hchar := DrunkWalk.get2_generateWalls g y x hy0 hx0
    have hnc : ¬ DrunkWalk.wallCond g (x : Int) (y : Int) = true := by
      intro hcond
      rw [hchar] at h0
      by_cases hz : get2 g y x = 0
      · rw [if_pos ⟨hz, hcond⟩] at h0
        cases h0
      · rw [if_neg (fun hh => hz hh.1)] at h0
        exact hz h0
    rw [if_neg]
    intro hh
    rw [hwc] at hh
    exact hnc hh.2
  · rw [if_neg (fun hh => h0 hh.1)]

/-- Claim C10: every entry of a region's member list is the
`(y, x)`-swapped pair of a claimed cell: for an entry `(a, b)` the grid cell
at `x = b, y = a` holds this region's id, and the point query (which takes
`(x, y)` order) at `(b, a)` returns the id. -/
theorem member_list_swap (tape : Nat → Nat) (n W H : Nat) (st : Voronoi.VState)
    (h : Voronoi.voronoi tape n W H = some st) (id : Nat) (a b : Nat)
    (hmem : (a, b) ∈ Voronoi.getPositionsFromArea st id) :
    get2 st.map_data a b = id ∧
      Voronoi.getAreaFromPosition st ((b : Int), (a : Int)) = Int.ofNat id := by
  obtain ⟨hsize, hwf, hvals, hsome, hnone, hcontent⟩ :=
    Voronoi.voronoi_some_inv tape n W H st h
  have hnone2 : ∀ j, j = 0 ∨ n < j → st.areas j = none := hnone
  have hwf2 : st.map_data.length = H ∧ ∀ y, y < H → (st.map_data.getD y []).length = W := hwf
  unfold Voronoi.getPositionsFromArea Voronoi.getArea at hmem
  cases har : st.areas id with
  | none =>
      rw [har] at hmem
      simp [Voronoi.sentinelArea] at hmem
  | some a2 =>
      rw [har] at hmem
      simp only [Option.getD_some] at hmem
      have hg : get2 st.map_data a b = id := ((hcontent id a2 har).2 (a, b)).mp hmem
      refine ⟨hg, ?_⟩
      have hid : 1 ≤ id ∧ id ≤ n := by
        by_contra hcon
        rw [hnone2 id (by omega)] at har
        cases har
      have hbounds := get2_ne_zero_bounds st.map_data a b (by rw [hg]; omega)
      have ha : a < H := by rw [← hwf2.1]; exact hbounds.1
      have hb : b < W := by
        have hbb := hbounds.2
        rwa [hwf2.2 a ha] at hbb
      unfold Voronoi.getAreaFromPosition
      rw [hsize]
      rw [if_neg (by push_neg; refine ⟨by omega, by omega, by omega, by omega⟩)]
      simp only [Int.toNat_natCast]
      rw [hg]

theorem member_list_swap_witness :
    ∃ st, Voronoi.voronoi (fun k => k / 2) 2 2 2 = some st ∧
      ((0, 1) ∈ Voronoi.getPositionsFromArea st 1 ∧
        get2 st.map_data 0 1 = 1 ∧
        Voronoi.getAreaFromPosition st ((1 : Int), (0 : Int)) = Int.ofNat 1) := by
  cases hst : Voronoi.voronoi (fun k => k / 2) 2 2 2 with
  | none =>
      have := Voronoi.voronoi_total (fun k => k / 2) 2 2 2 (Or.inr ⟨by decide, by decide⟩)
      rw [hst] at this
      cases this
  | some st =>
      have hm : (Voronoi.voronoi (fun k => k / 2) 2 2 2).map
          (fun st => Voronoi.getPositionsFromArea st 1) = some [(0, 0), (0, 1), (1, 0)] := by
        decide
      rw [hst] at hm
      simp only [Option.map_some'] at hm
      have hmem : ((0 : Nat), (1 : Nat)) ∈ Voronoi.getPositionsFromArea st 1 := by
        rw [Option.some.inj hm]
        decide
      have := member_list_swap (fun k => k / 2) 2 2 2 st hst 1 0 1 hmem
      exact ⟨st, rfl, hmem, this.1, this.2⟩
